import Mathlib

/-!
# lab_12_vector_crc32: `Vector<T>` and `Map<Key, T>`

A shallow embedding of `src/vector.hpp` and `src/map.hpp`.

* A `Vector` is the triple `size_`, `capacity_`, `data_` of the class; the
  heap buffer `data_` is the list of its `capacity_` slots (`new T[n]`
  default-constructs every slot).
* Iterators are raw pointers into the buffer; they are embedded as the slot
  index `ptr_ - data_`, so `begin()` is `0` and `end()` is `size_`.
* `size_t` values are natural numbers: allocation is assumed to succeed and
  no counter reaches `2^64`.
* `crc32.hpp` is not part of the sources, so the hash functor `CRC32<Key>` is
  a parameter `crc32 : Key → Nat` of every operation that hashes a key.
* Const qualification, access control and iterator categories are erased.
* Reading a slot outside the allocated buffer, and a call that names no
  member of the callee, have no result (`none`).
-/

namespace Lab12

/-! ## vector.hpp -/

/-- The macro `STD_VECTOR_CAPACITY`. -/
def STD_VECTOR_CAPACITY : Nat := 256

/-- The data members of `class Vector`. -/
structure Vector (α : Type) where
  size_ : Nat
  capacity_ : Nat
  data_ : List α
deriving Repr, DecidableEq

namespace Vector

variable {α : Type}

/-- The constructor `Vector()`: `size_(0), capacity_(0), data_(nullptr)`. -/
def new : Vector α := ⟨0, 0, []⟩

/-- The member `size()`. -/
def size (v : Vector α) : Nat := v.size_

/-- The member `capacity()`. -/
def capacity (v : Vector α) : Nat := v.capacity_

/-- The member `empty()`. -/
def empty (v : Vector α) : Bool := v.size_ == 0

/-- The elements of the range `[begin(), end())`, in order. -/
def toList (v : Vector α) : List α := v.data_.take v.size_

/-- The loop of `reserve`: `for (i = 0; i < n; ++i) buf[i] = data_[i];`. -/
def copy_loop [Inhabited α] (src : List α) (buf : List α) : Nat → List α
  | 0 => buf
  | i + 1 => (copy_loop src buf i).set i (src.getD i default)

/-- The member `reserve(capacity)`. -/
def reserve [Inhabited α] (v : Vector α) (capacity : Nat) : Vector α :=
  if capacity ≤ v.capacity_ then v
  else
    let buf := List.replicate capacity (default : α)
    { v with data_ := copy_loop v.data_ buf v.size_, capacity_ := capacity }

/-- The member `push_back(val)`. -/
def push_back [Inhabited α] (v : Vector α) (val : α) : Vector α :=
  let v1 := if v.size_ ≥ v.capacity_ then
      v.reserve (if v.capacity_ = 0 then STD_VECTOR_CAPACITY else v.capacity_ * 2)
    else v
  { v1 with data_ := v1.data_.set v1.size_ val, size_ := v1.size_ + 1 }

/-- The member `back()`: the slot index `size_ - 1`. -/
def back (v : Vector α) : Nat := v.size_ - 1

/-- The loop `for (i = start; i < start + n; ++i) data_[i] = val;` of the
filling constructor and of `resize`. -/
def fill_loop (val : α) : List α → Nat → Nat → List α
  | buf, _, 0 => buf
  | buf, i, n + 1 => fill_loop val (buf.set i val) (i + 1) n

/-- The constructor `Vector(count)`. -/
def new_count [Inhabited α] (count : Nat) : Vector α :=
  ⟨count, count, List.replicate count default⟩

/-- The constructor `Vector(count, val)`. -/
def new_count_val [Inhabited α] (count : Nat) (val : α) : Vector α :=
  ⟨count, count, fill_loop val (List.replicate count default) 0 count⟩

/-- The member `clear()`. -/
def clear (v : Vector α) : Vector α := { v with size_ := 0 }

/-- The member `pop_back()`. -/
def pop_back (v : Vector α) : Vector α :=
  if v.size_ > 0 then { v with size_ := v.size_ - 1 } else v

/-- The member `resize(size)`. -/
def resize [Inhabited α] (v : Vector α) (size : Nat) : Vector α :=
  let v1 := if size > v.capacity_ then v.reserve size else v
  let v2 := if size > v1.size_ then
      { v1 with data_ := fill_loop default v1.data_ v1.size_ (size - v1.size_) }
    else v1
  { v2 with size_ := size }

/-- The member `resize(size, val)`. -/
def resize_val [Inhabited α] (v : Vector α) (size : Nat) (val : α) : Vector α :=
  let v1 := if size > v.capacity_ then v.reserve size else v
  let v2 := if size > v1.size_ then
      { v1 with data_ := fill_loop val v1.data_ v1.size_ (size - v1.size_) }
    else v1
  { v2 with size_ := size }

/-- The member `swap(other)`: the two vectors afterwards, `*this` first. -/
def swap (v other : Vector α) : Vector α × Vector α :=
  (⟨other.size_, other.capacity_, other.data_⟩, ⟨v.size_, v.capacity_, v.data_⟩)

/-- The call `std::swap(*it, *(it + 1))` on the slots `i` and `j`. -/
def swap_slots (buf : List α) (i j : Nat) : List α :=
  match buf[i]?, buf[j]? with
  | some a, some b => (buf.set i b).set j a
  | _, _ => buf

/-- The loop `for (it = pos; it != end() - 1; ++it) std::swap(*it, *(it + 1));`
of `erase(pos)`, for the `n` rounds from `it` up to `end() - 1`. -/
def erase_loop : List α → Nat → Nat → List α
  | buf, _, 0 => buf
  | buf, it, n + 1 => erase_loop (swap_slots buf it (it + 1)) (it + 1) n

/-- The member `erase(pos)`. For `pos` beyond `end()` the loop never meets
`end() - 1` and runs off the buffer: no result. -/
def erase (v : Vector α) (pos : Nat) : Option (Vector α) :=
  if pos = v.size_ then some v
  else if pos < v.size_ then
    some (pop_back { v with data_ := erase_loop v.data_ pos (v.size_ - 1 - pos) })
  else none

/-- The loop `for (it = first; it != last; ++it) { erase(it); --last; }` of
`erase(first, last)`, for at most `fuel` rounds. -/
def erase_range_loop : Nat → Vector α → Nat → Int → Option (Vector α)
  | 0, _, _, _ => none
  | fuel + 1, v, it, last =>
    if (it : Int) = last then some v
    else (v.erase it).bind (fun v1 => erase_range_loop fuel v1 (it + 1) (last - 1))

/-- The member `erase(first, last)`. Every round moves `it` one slot up, so
within `size_ + 2` rounds the loop has ended or `erase(it)` has run off the
buffer. -/
def erase_range (v : Vector α) (first last : Nat) : Option (Vector α) :=
  if first = last then some v
  else erase_range_loop (v.size_ + 2) v first last

/-- The vector after `push_back` of each element of `xs`, in order. -/
def push_all [Inhabited α] (v : Vector α) (xs : List α) : Vector α :=
  xs.foldl push_back v

/-- The class invariant: the buffer has `capacity_` slots and `size_` of
them are in use. -/
def WF (v : Vector α) : Prop := v.size_ ≤ v.capacity_ ∧ v.data_.length = v.capacity_

instance (v : Vector α) : Decidable v.WF := by unfold WF; infer_instance

end Vector

/-! ## `std::sort` -/

/-- One insertion step: `x` goes before the first element that does not
compare less than it. -/
def sort_insert {α : Type} (cmp : α → α → Bool) (x : α) : List α → List α
  | [] => [x]
  | y :: ys => if cmp y x then y :: sort_insert cmp x ys else x :: y :: ys

/-- The call `std::sort(first, last, cmp)` on the elements of the range. The
standard leaves the order of equivalent elements open; this is an insertion
sort, which keeps them in their original order. -/
def std_sort {α : Type} (cmp : α → α → Bool) (l : List α) : List α :=
  l.foldr (sort_insert cmp) []

/-- The call `std::sort(v.begin(), v.end(), cmp)`: the slots below `size_` are
sorted in place, the rest of the buffer is untouched. -/
def Vector.sort {α : Type} (v : Vector α) (cmp : α → α → Bool) : Vector α :=
  { v with data_ := std_sort cmp (v.data_.take v.size_) ++ v.data_.drop v.size_ }

/-! ## map.hpp -/

/-- The data member `data_` of `class Map`: the vector of
`std::pair<uint32_t, T>` entries. The member `crc32` is the parameter
`crc32` of the operations below. -/
structure Map (T : Type) where
  data_ : Vector (Nat × T)
deriving Repr, DecidableEq

/-- The error thrown by `at`: `std::out_of_range`. -/
inductive MapError where
  | out_of_range
deriving Repr, DecidableEq

namespace Map

variable {Key T : Type}

/-- The private function `key_cmp`. -/
def key_cmp (a b : Nat × T) : Bool := decide (a.1 < b.1)

/-- The constructor `Map()`. -/
def new : Map T := ⟨Vector.new⟩

/-- The member `begin()`. -/
def begin (_m : Map T) : Nat := 0

/-- The member `end()`. -/
def end_ (m : Map T) : Nat := m.data_.size_

/-- The member `size()`. -/
def size (m : Map T) : Nat := m.data_.size

/-- The member `empty()`. -/
def empty (m : Map T) : Bool := m.data_.empty

/-- The entries in the range `[begin(), end())`, in order. -/
def entries (m : Map T) : List (Nat × T) := m.data_.toList

/-- The loop `for (it = begin(); it != end(); ++it) if (hashed_key ==
it->first) break;` of `find` and `operator[]`, started at position `it`
with the slots from `it` up to `end()`; its value is the final `it`. -/
def scan_break (hashed_key : Nat) : List (Nat × T) → Nat → Nat
  | [], it => it
  | e :: rest, it => if hashed_key = e.1 then it else scan_break hashed_key rest (it + 1)

/-- The loop `for (it = begin(); it != end(); ++it) if (it->first ==
hashed_key) return ...;` of `at` and `insert`: `some it` when the body
returns at `it`, `none` when the loop runs to `end()`. -/
def scan_return (hashed_key : Nat) : List (Nat × T) → Nat → Option Nat
  | [], _ => none
  | e :: rest, it => if e.1 = hashed_key then some it else scan_return hashed_key rest (it + 1)

/-- The member `find(key)`. -/
def find (crc32 : Key → Nat) (m : Map T) (key : Key) : Nat :=
  let hashed_key := crc32 key
  scan_break hashed_key m.entries m.begin

/-- The member `count(key)`. -/
def count (crc32 : Key → Nat) (m : Map T) (key : Key) : Nat :=
  if m.find crc32 key = m.end_ then 0 else 1

/-- The member `at(key)`: the map afterwards and either the position of
the slot whose `second` is returned, or the exception. -/
def at_ (crc32 : Key → Nat) (m : Map T) (key : Key) : Map T × Except MapError Nat :=
  let hashed_key := crc32 key
  match scan_return hashed_key m.entries m.begin with
  | some it => (m, .ok it)
  | none => (m, .error .out_of_range)

/-- The member `insert(val)`: the map afterwards and the returned pair. -/
def insert [Inhabited T] (crc32 : Key → Nat) (m : Map T) (val : Key × T) :
    Map T × (Nat × Bool) :=
  let hashed_key := crc32 val.1
  match scan_return hashed_key m.entries m.begin with
  | some it => (m, (it, false))
  | none =>
    let m1 : Map T := ⟨m.data_.push_back (hashed_key, val.2)⟩
    let m2 : Map T := ⟨m1.data_.sort key_cmp⟩
    (m2, (m2.find crc32 val.1, true))

/-- The member `insert(pos, val)`. -/
def insert_hint [Inhabited T] (crc32 : Key → Nat) (m : Map T) (_pos : Nat) (val : Key × T) :
    Map T × Nat :=
  let hashed_key := crc32 val.1
  let m1 : Map T := ⟨m.data_.push_back (hashed_key, val.2)⟩
  let m2 : Map T := ⟨m1.data_.sort key_cmp⟩
  (m2, m2.find crc32 val.1)

/-- The comparison `it == NULL` in `operator[]`: the iterator holds the null
pointer. The vector of a map is default-constructed, so its `data_` is
`nullptr` exactly while nothing has been allocated. -/
def is_null (m : Map T) (it : Nat) : Bool := m.data_.capacity_ == 0 && it == 0

/-- The member `operator[](key)`: the map afterwards and the position of
the slot whose `second` is returned by reference. -/
def index [Inhabited T] (crc32 : Key → Nat) (m : Map T) (key : Key) : Map T × Nat :=
  let hashed_key := crc32 key
  let it := scan_break hashed_key m.entries m.begin
  let r : Map T × Nat :=
    if it = m.end_ then
      let m1 := (m.insert crc32 (key, default)).1
      let m2 : Map T := ⟨m1.data_.sort key_cmp⟩
      (m2, scan_break hashed_key m2.entries m2.begin)
    else (m, it)
  if r.1.is_null r.2 then (r.1, r.1.data_.back) else r

/-- Reading the `second` of the slot at position `it`; `none` outside the
allocated buffer. -/
def read_second (m : Map T) (it : Nat) : Option T := (m.data_.data_[it]?).map Prod.snd

/-- Writing `v` to the `second` of the slot at position `it`. -/
def write_second (m : Map T) (it : Nat) (v : T) : Map T :=
  ⟨{ m.data_ with data_ := m.data_.data_.modify (fun e => (e.1, v)) it }⟩

/-- The expression `m[key]` read as a value. -/
def get [Inhabited T] (crc32 : Key → Nat) (m : Map T) (key : Key) : Map T × Option T :=
  let r := m.index crc32 key
  (r.1, r.1.read_second r.2)

/-- The statement `m[key] = v;`. -/
def assign [Inhabited T] (crc32 : Key → Nat) (m : Map T) (key : Key) (v : T) : Map T :=
  let r := m.index crc32 key
  r.1.write_second r.2 v

/-- The statement `m[key] += d;`. -/
def add_assign [Inhabited T] [Add T] (crc32 : Key → Nat) (m : Map T) (key : Key) (d : T) :
    Option (Map T) :=
  let r := m.index crc32 key
  (r.1.read_second r.2).map (fun old => r.1.write_second r.2 (old + d))

/-- The call `data_.erase()` in `erase(pos)`. `Vector` declares
`erase(iterator)` and `erase(iterator, iterator)` only, so the call names no
member and has no result. -/
def vector_erase_no_argument (_v : Vector (Nat × T)) : Option (Vector (Nat × T)) := none

/-- The member `erase(pos)`. -/
def erase_pos (m : Map T) (pos : Nat) : Option (Map T × Nat) :=
  (vector_erase_no_argument m.data_).map
    (fun d => ((⟨d.sort key_cmp⟩ : Map T), pos + 1))

/-- The member `erase(key)`. -/
def erase (crc32 : Key → Nat) (m : Map T) (key : Key) : Option (Map T × Nat) :=
  let it := m.find crc32 key
  if it = m.end_ then some (m, 0)
  else (m.erase_pos it).map (fun r => (r.1, 1))

/-- The loop `while (it->first < hashed_key) ++it;` of `lower_bound`, started
at position `it` with the buffer slots from `it` on; `none` when it reads
past the last slot of the buffer. -/
def scan_less (hashed_key : Nat) : List (Nat × T) → Nat → Option Nat
  | [], _ => none
  | e :: rest, it => if e.1 < hashed_key then scan_less hashed_key rest (it + 1) else some it

/-- The loop `while (it->first <= hashed_key) ++it;` of `upper_bound`. -/
def scan_less_equal (hashed_key : Nat) : List (Nat × T) → Nat → Option Nat
  | [], _ => none
  | e :: rest, it =>
    if e.1 ≤ hashed_key then scan_less_equal hashed_key rest (it + 1) else some it

/-- The member `lower_bound(key)`. -/
def lower_bound (crc32 : Key → Nat) (m : Map T) (key : Key) : Option Nat :=
  let hashed_key := crc32 key
  scan_less hashed_key m.data_.data_ m.begin

/-- The member `upper_bound(key)`. -/
def upper_bound (crc32 : Key → Nat) (m : Map T) (key : Key) : Option Nat :=
  let hashed_key := crc32 key
  scan_less_equal hashed_key m.data_.data_ m.begin

/-- The comparison `operator<` of `std::pair<uint32_t, T>`. -/
def pair_lt [LinearOrder T] (a b : Nat × T) : Bool :=
  decide (a.1 < b.1) || (!decide (b.1 < a.1) && decide (a.2 < b.2))

/-- The comparison `operator>` of `std::pair<uint32_t, T>`. -/
def pair_gt [LinearOrder T] (a b : Nat × T) : Bool := pair_lt b a

/-- The loop `for (; l != lhs.end(); ++l, ++r) if (*l != *r) return false;`
of `operator==`. The sizes are equal when the loop runs, so `r` stays below
`rhs.end()`; `none` is a read at or past it. -/
def eq_loop [DecidableEq T] : List (Nat × T) → List (Nat × T) → Option Bool
  | [], _ => some true
  | _ :: _, [] => none
  | x :: xs, y :: ys => if x ≠ y then some false else eq_loop xs ys

/-- The friend `operator==` of two maps. -/
def op_eq [DecidableEq T] (lhs rhs : Map T) : Option Bool :=
  if lhs.size ≠ rhs.size then some false
  else eq_loop lhs.entries rhs.entries

/-- The friend `operator!=` of two maps. -/
def op_ne [DecidableEq T] (lhs rhs : Map T) : Option Bool :=
  (op_eq lhs rhs).map (fun b => !b)

/-- The loop of `operator>`: `if (*l > *r) return true; else if (*l < *r)
return false;`. -/
def gt_loop [LinearOrder T] : List (Nat × T) → List (Nat × T) → Option Bool
  | [], _ => some false
  | _ :: _, [] => none
  | x :: xs, y :: ys =>
    if pair_gt x y then some true
    else if pair_lt x y then some false
    else gt_loop xs ys

/-- The friend `operator>` of two maps. -/
def op_gt [LinearOrder T] (lhs rhs : Map T) : Option Bool :=
  if lhs.size > rhs.size then some true
  else if lhs.size < rhs.size then some false
  else gt_loop lhs.entries rhs.entries

/-- The loop of `operator<`: `if (*l < *r) return true; else if (*l > *r)
return false;`. -/
def lt_loop [LinearOrder T] : List (Nat × T) → List (Nat × T) → Option Bool
  | [], _ => some false
  | _ :: _, [] => none
  | x :: xs, y :: ys =>
    if pair_lt x y then some true
    else if pair_gt x y then some false
    else lt_loop xs ys

/-- The friend `operator<` of two maps. -/
def op_lt [LinearOrder T] (lhs rhs : Map T) : Option Bool :=
  if lhs.size < rhs.size then some true
  else if lhs.size > rhs.size then some false
  else lt_loop lhs.entries rhs.entries

/-- The friend `operator<=` of two maps. -/
def op_le [LinearOrder T] (lhs rhs : Map T) : Option Bool :=
  (op_gt lhs rhs).map (fun b => !b)

/-- The friend `operator>=` of two maps. -/
def op_ge [LinearOrder T] (lhs rhs : Map T) : Option Bool :=
  (op_lt lhs rhs).map (fun b => !b)

/-- The class invariant of the backing vector. -/
def WF (m : Map T) : Prop := m.data_.WF

instance (m : Map T) : Decidable m.WF := by unfold WF; infer_instance

/-- The entries have strictly ascending hashes. -/
def Ascending (m : Map T) : Prop := m.entries.Pairwise (fun a b => a.1 < b.1)

instance (m : Map T) : Decidable m.Ascending := by unfold Ascending; infer_instance

/-- Some entry has the hash `h`. -/
def HasHash (m : Map T) (h : Nat) : Prop := ∃ e ∈ m.entries, e.1 = h

instance (m : Map T) (h : Nat) : Decidable (m.HasHash h) := by unfold HasHash; infer_instance

end Map

/-! ## Sequences of calls -/

/-- One call on a map: `insert({key, value})`, `erase(key)`, `erase(pos)`,
`operator[](key)` alone, or `operator[](key)` followed by a store of `value`
through the returned reference. -/
inductive Op (Key T : Type) where
  | insert (key : Key) (value : T)
  | erase_key (key : Key)
  | erase_pos (pos : Nat)
  | index (key : Key)
  | assign (key : Key) (value : T)

/-- The map after one call; `none` when the call has no result. -/
def Map.step {Key T : Type} [Inhabited T] (crc32 : Key → Nat) (m : Map T) :
    Op Key T → Option (Map T)
  | Op.insert key value => some (m.insert crc32 (key, value)).1
  | Op.erase_key key => (m.erase crc32 key).map Prod.fst
  | Op.erase_pos pos => (m.erase_pos pos).map Prod.fst
  | Op.index key => some (m.index crc32 key).1
  | Op.assign key value => some (m.assign crc32 key value)

/-- The map after a sequence of calls, made in order. -/
def Map.run {Key T : Type} [Inhabited T] (crc32 : Key → Nat) :
    Map T → List (Op Key T) → Option (Map T)
  | m, [] => some m
  | m, op :: ops => (m.step crc32 op).bind (fun m1 => Map.run crc32 m1 ops)

/-! ## Concrete inputs -/

/-- A sample hash on strings: the sum of the character codes. -/
def demo_crc32 (s : String) : Nat := (s.toList.map Char.toNat).sum

/-- The map after `insert({"One", 1})` on an empty map. -/
def demo_one : Map Int := (Map.new.insert demo_crc32 ("One", 1)).1

/-- The map after `insert({"One", 1})` and `insert({"Two", 2})`. -/
def demo_two : Map Int := (demo_one.insert demo_crc32 ("Two", 2)).1

/-- The vector after `push_back` of 1, 2, 3, 4 on an empty vector. -/
def demo_vec : Vector Nat := Vector.push_all Vector.new [1, 2, 3, 4]

/-- The map after `insert({"ab", 1})` on an empty map; "ab" and "ba" have the
same `demo_crc32`. -/
def demo_ab : Map Int := (Map.new.insert demo_crc32 ("ab", 1)).1

/-- A sequence of calls on an empty map. -/
def demo_ops : List (Op String Int) :=
  [Op.insert "Two" 2, Op.assign "Three" 3, Op.erase_key "Zero", Op.index "One",
    Op.insert "Two" 5]

/-- The map after the calls of `demo_ops`. -/
def demo_final : Map Int :=
  ((((Map.new.insert demo_crc32 ("Two", 2)).1.assign demo_crc32 "Three" 3).index
    demo_crc32 "One").1.insert demo_crc32 ("Two", 5)).1

/-- The test of the scans as a predicate on entries. -/
def hash_is {T : Type} (h : Nat) (e : Nat × T) : Bool := decide (e.1 = h)

/-! ## Lists: the copy loop and the sort -/

theorem copy_loop_eq {α : Type} [Inhabited α] (src buf : List α) :
    ∀ n, n ≤ src.length → n ≤ buf.length →
      Vector.copy_loop src buf n = src.take n ++ buf.drop n := by
  intro n
  induction n with
  | zero => intro _ _; simp [Vector.copy_loop]
  | succ i ih =>
    intro h1 h2
    rw [Vector.copy_loop, ih (by omega) (by omega)]
    apply List.ext_getElem
    · simp; omega
    · intro j hj1 hj2
      simp only [List.length_set, List.length_append, List.length_take, List.length_drop] at hj1 hj2
      rw [List.getElem_set]
      by_cases hji : i = j
      · subst hji
        simp only [if_true]
        rw [List.getElem_append_left (by simp; omega)]
        simp [List.getElem?_eq_getElem (show i < src.length by omega)]
      · simp only [hji, if_false]
        by_cases hlt : j < i
        · rw [List.getElem_append_left (by simp; omega),
            List.getElem_append_left (by simp; omega)]
          simp
        · rw [List.getElem_append_right (by simp; omega),
            List.getElem_append_right (by simp; omega)]
          simp only [List.getElem_drop, List.length_take]
          congr 1
          omega

theorem sort_insert_perm {α : Type} (cmp : α → α → Bool) (x : α) (l : List α) :
    (sort_insert cmp x l).Perm (x :: l) := by
  induction l with
  | nil => simp [sort_insert]
  | cons y ys ih =>
    simp only [sort_insert]
    split
    · exact (List.Perm.cons y ih).trans (List.Perm.swap x y ys)
    · exact List.Perm.refl _

theorem std_sort_perm {α : Type} (cmp : α → α → Bool) (l : List α) :
    (std_sort cmp l).Perm l := by
  induction l with
  | nil => simp [std_sort]
  | cons x xs ih =>
    have h : std_sort cmp (x :: xs) = sort_insert cmp x (std_sort cmp xs) := rfl
    rw [h]
    exact (sort_insert_perm cmp x _).trans (List.Perm.cons x ih)

theorem std_sort_length {α : Type} (cmp : α → α → Bool) (l : List α) :
    (std_sort cmp l).length = l.length :=
  (std_sort_perm cmp l).length_eq

/-! ## The backing vector -/

theorem Vector.reserve_wf {α : Type} [Inhabited α] (v : Vector α) (c : Nat) (h : v.WF) :
    (v.reserve c).WF := by
  obtain ⟨h1, h2⟩ := h
  unfold Vector.reserve
  split
  · exact ⟨h1, h2⟩
  · refine ⟨?_, ?_⟩
    · simp only; omega
    · simp only
      rw [copy_loop_eq _ _ _ (by omega) (by simp; omega)]
      simp; omega

theorem Vector.reserve_toList {α : Type} [Inhabited α] (v : Vector α) (c : Nat) (h : v.WF) :
    (v.reserve c).toList = v.toList := by
  obtain ⟨h1, h2⟩ := h
  unfold Vector.reserve
  split
  · rfl
  · simp only [Vector.toList]
    rw [copy_loop_eq _ _ _ (by omega) (by simp; omega)]
    rw [List.take_append_of_le_length (by simp; omega)]
    simp

theorem Vector.reserve_size {α : Type} [Inhabited α] (v : Vector α) (c : Nat) :
    (v.reserve c).size_ = v.size_ := by
  unfold Vector.reserve
  split <;> rfl

theorem Vector.reserve_capacity {α : Type} [Inhabited α] (v : Vector α) (c : Nat) :
    (v.reserve c).capacity_ = max v.capacity_ c := by
  unfold Vector.reserve
  split
  · omega
  · simp only; omega

theorem Vector.push_back_size {α : Type} [Inhabited α] (v : Vector α) (x : α) :
    (v.push_back x).size_ = v.size_ + 1 := by
  unfold Vector.push_back
  split <;> simp [Vector.reserve_size]

theorem Vector.push_back_wf {α : Type} [Inhabited α] (v : Vector α) (x : α) (h : v.WF) :
    (v.push_back x).WF := by
  unfold Vector.push_back
  split
  · rename_i hge
    have hw := Vector.reserve_wf v (if v.capacity_ = 0 then STD_VECTOR_CAPACITY
      else v.capacity_ * 2) h
    have hc := Vector.reserve_capacity v (if v.capacity_ = 0 then STD_VECTOR_CAPACITY
      else v.capacity_ * 2)
    have hs := Vector.reserve_size v (if v.capacity_ = 0 then STD_VECTOR_CAPACITY
      else v.capacity_ * 2)
    obtain ⟨h1, h2⟩ := h
    obtain ⟨w1, w2⟩ := hw
    refine ⟨?_, ?_⟩
    · simp only
      rw [hc, hs]
      split
      · simp [STD_VECTOR_CAPACITY]; omega
      · omega
    · simpa using w2
  · rename_i hlt
    obtain ⟨h1, h2⟩ := h
    refine ⟨?_, ?_⟩
    · simp only; omega
    · simpa using h2

theorem Vector.push_back_toList {α : Type} [Inhabited α] (v : Vector α) (x : α) (h : v.WF) :
    (v.push_back x).toList = v.toList ++ [x] := by
  have key : ∀ w : Vector α, w.size_ < w.data_.length →
      ({ w with data_ := w.data_.set w.size_ x, size_ := w.size_ + 1 } : Vector α).toList
        = w.toList ++ [x] := by
    intro w hw
    simp only [Vector.toList]
    rw [List.take_succ, List.set_take, List.set_eq_of_length_le (by simp)]
    simp [List.getElem?_set, hw]
  unfold Vector.push_back
  split
  · rename_i hge
    have hw := Vector.reserve_wf v (if v.capacity_ = 0 then STD_VECTOR_CAPACITY
      else v.capacity_ * 2) h
    have hc := Vector.reserve_capacity v (if v.capacity_ = 0 then STD_VECTOR_CAPACITY
      else v.capacity_ * 2)
    have hs := Vector.reserve_size v (if v.capacity_ = 0 then STD_VECTOR_CAPACITY
      else v.capacity_ * 2)
    have ht := Vector.reserve_toList v (if v.capacity_ = 0 then STD_VECTOR_CAPACITY
      else v.capacity_ * 2) h
    rw [key _ ?_, ht]
    obtain ⟨h1, h2⟩ := h
    rw [hw.2, hc, hs]
    split
    · simp [STD_VECTOR_CAPACITY]; omega
    · omega
  · rename_i hlt
    apply key
    obtain ⟨h1, h2⟩ := h
    omega

theorem Vector.sort_wf {α : Type} (v : Vector α) (cmp : α → α → Bool) (h : v.WF) :
    (v.sort cmp).WF := by
  obtain ⟨h1, h2⟩ := h
  refine ⟨h1, ?_⟩
  simp only [Vector.sort, List.length_append, std_sort_length, List.length_take,
    List.length_drop]
  omega

theorem Vector.sort_toList {α : Type} (v : Vector α) (cmp : α → α → Bool) (h : v.WF) :
    (v.sort cmp).toList = std_sort cmp v.toList := by
  obtain ⟨h1, h2⟩ := h
  simp only [Vector.sort, Vector.toList]
  rw [List.take_append_of_le_length (by simp [std_sort_length]; omega)]
  rw [List.take_of_length_le (by simp [std_sort_length])]

/-! ## The scans -/

theorem scan_break_eq {T : Type} (h : Nat) (l : List (Nat × T)) :
    ∀ s, Map.scan_break h l s = s + l.findIdx (hash_is h) := by
  induction l with
  | nil => intro s; simp [Map.scan_break]
  | cons e rest ih =>
    intro s
    simp only [Map.scan_break, List.findIdx_cons]
    by_cases he : h = e.1
    · have hp : hash_is h e = true := by simp [hash_is, he]
      rw [if_pos he, hp]
      rfl
    · have hp : hash_is h e = false := by
        simp only [hash_is, decide_eq_false_iff_not]
        exact fun c => he c.symm
      simp only [he, hp, if_false, cond_false]
      rw [ih]
      omega

theorem scan_return_eq {T : Type} (h : Nat) (l : List (Nat × T)) :
    ∀ s, Map.scan_return h l s =
      if l.findIdx (hash_is h) < l.length then some (s + l.findIdx (hash_is h)) else none := by
  induction l with
  | nil => intro s; simp [Map.scan_return]
  | cons e rest ih =>
    intro s
    simp only [Map.scan_return, List.findIdx_cons]
    by_cases he : e.1 = h
    · have hp : hash_is h e = true := by simp [hash_is, he]
      rw [if_pos he, hp]
      simp
    · have hp : hash_is h e = false := by
        simp only [hash_is, decide_eq_false_iff_not]
        exact he
      simp only [he, hp, if_false, cond_false]
      rw [ih]
      simp only [List.length_cons, Nat.add_lt_add_iff_right]
      split
      · congr 1; omega
      · rfl

theorem findIdx_lt_iff {T : Type} (h : Nat) (l : List (Nat × T)) :
    l.findIdx (hash_is h) < l.length ↔ ∃ e ∈ l, e.1 = h := by
  rw [List.findIdx_lt_length]
  simp [hash_is]

theorem findIdx_eq_length_iff {T : Type} (h : Nat) (l : List (Nat × T)) :
    l.findIdx (hash_is h) = l.length ↔ ¬ ∃ e ∈ l, e.1 = h := by
  rw [← findIdx_lt_iff]
  have := @List.findIdx_le_length _ (hash_is h) l
  omega

theorem findIdx_hash {T : Type} (h : Nat) (l : List (Nat × T))
    (hl : l.findIdx (hash_is h) < l.length) : (l[l.findIdx (hash_is h)]).1 = h := by
  have := List.findIdx_getElem (p := hash_is h) (w := hl)
  simpa [hash_is] using this

theorem findIdx_first {T : Type} (h : Nat) (l : List (Nat × T)) (j : Nat)
    (hj : j < l.findIdx (hash_is h)) (hjl : j < l.length) : (l[j]).1 ≠ h := by
  have := List.not_of_lt_findIdx (p := hash_is h) hj
  simpa [hash_is] using this

/-! ## Sorted lists of entries -/

theorem sort_insert_sorted {T : Type} (x : Nat × T) (l : List (Nat × T))
    (hl : l.Pairwise (fun a b => a.1 ≤ b.1)) :
    (sort_insert Map.key_cmp x l).Pairwise (fun a b => a.1 ≤ b.1) := by
  induction l with
  | nil => simp [sort_insert]
  | cons y ys ih =>
    rw [List.pairwise_cons] at hl
    simp only [sort_insert, Map.key_cmp, decide_eq_true_eq]
    split
    · rename_i hyx
      rw [List.pairwise_cons]
      refine ⟨?_, ih hl.2⟩
      intro b hb
      have hb2 := (sort_insert_perm Map.key_cmp x ys).subset hb
      rcases List.mem_cons.1 hb2 with rfl | hb3
      · omega
      · exact hl.1 b hb3
    · rename_i hyx
      rw [List.pairwise_cons, List.pairwise_cons]
      refine ⟨?_, hl.1, hl.2⟩
      intro b hb
      rcases List.mem_cons.1 hb with rfl | hb3
      · omega
      · have := hl.1 b hb3
        omega

theorem std_sort_sorted {T : Type} (l : List (Nat × T)) :
    (std_sort Map.key_cmp l).Pairwise (fun a b => a.1 ≤ b.1) := by
  induction l with
  | nil => simp [std_sort]
  | cons x xs ih =>
    have h : std_sort Map.key_cmp (x :: xs)
        = sort_insert Map.key_cmp x (std_sort Map.key_cmp xs) := rfl
    rw [h]
    exact sort_insert_sorted x _ ih

theorem ascending_nodup {T : Type} (l : List (Nat × T))
    (hl : l.Pairwise (fun a b => a.1 < b.1)) : (l.map Prod.fst).Nodup := by
  rw [List.Nodup, List.pairwise_map]
  exact hl.imp (fun h => Nat.ne_of_lt h)

theorem sorted_nodup_ascending {T : Type} (l : List (Nat × T))
    (hl : l.Pairwise (fun a b => a.1 ≤ b.1)) (hn : (l.map Prod.fst).Nodup) :
    l.Pairwise (fun a b => a.1 < b.1) := by
  rw [List.Nodup, List.pairwise_map] at hn
  exact (hl.and hn).imp (fun h => Nat.lt_of_le_of_ne h.1 h.2)

theorem std_sort_ascending {T : Type} (l : List (Nat × T)) (hn : (l.map Prod.fst).Nodup) :
    (std_sort Map.key_cmp l).Pairwise (fun a b => a.1 < b.1) := by
  apply sorted_nodup_ascending _ (std_sort_sorted l)
  exact ((std_sort_perm Map.key_cmp l).map Prod.fst).nodup_iff.2 hn

theorem sort_insert_ascending {T : Type} (x : Nat × T) (l : List (Nat × T))
    (hl : l.Pairwise (fun a b => a.1 ≤ b.1)) (hx : ∀ e ∈ l, x.1 ≤ e.1) :
    sort_insert Map.key_cmp x l = x :: l := by
  cases l with
  | nil => rfl
  | cons y ys =>
    have := hx y (List.mem_cons_self _ _)
    simp only [sort_insert, Map.key_cmp, decide_eq_true_eq]
    rw [if_neg (by omega)]

theorem std_sort_of_sorted {T : Type} (l : List (Nat × T))
    (hl : l.Pairwise (fun a b => a.1 ≤ b.1)) : std_sort Map.key_cmp l = l := by
  induction l with
  | nil => rfl
  | cons x xs ih =>
    rw [List.pairwise_cons] at hl
    have h : std_sort Map.key_cmp (x :: xs)
        = sort_insert Map.key_cmp x (std_sort Map.key_cmp xs) := rfl
    rw [h, ih hl.2]
    exact sort_insert_ascending x xs hl.2 hl.1

/-! ## The map operations on the entry list -/

theorem Map.entries_length {T : Type} (m : Map T) (hwf : m.WF) :
    m.entries.length = m.data_.size_ := by
  obtain ⟨h1, h2⟩ := hwf
  simp only [Map.entries, Vector.toList, List.length_take]
  omega

theorem Map.find_eq {Key T : Type} (crc32 : Key → Nat) (m : Map T) (key : Key) :
    m.find crc32 key = m.entries.findIdx (hash_is (crc32 key)) := by
  simp only [Map.find, Map.begin, scan_break_eq]
  omega

theorem Map.hasHash_iff {T : Type} (m : Map T) (h : Nat) :
    m.HasHash h ↔ m.entries.findIdx (hash_is h) < m.entries.length := by
  rw [findIdx_lt_iff]
  rfl

theorem Map.insert_present {Key T : Type} [Inhabited T] (crc32 : Key → Nat) (m : Map T)
    (val : Key × T) (h : m.HasHash (crc32 val.1)) :
    m.insert crc32 val = (m, (m.entries.findIdx (hash_is (crc32 val.1)), false)) := by
  rw [Map.hasHash_iff] at h
  simp only [Map.insert, Map.begin, scan_return_eq, h, if_true, Nat.zero_add]

theorem Map.insert_absent {Key T : Type} [Inhabited T] (crc32 : Key → Nat) (m : Map T)
    (val : Key × T) (hwf : m.WF) (h : ¬ m.HasHash (crc32 val.1)) :
    (m.insert crc32 val).1.WF ∧
    (m.insert crc32 val).1.entries
      = std_sort Map.key_cmp (m.entries ++ [(crc32 val.1, val.2)]) ∧
    (m.insert crc32 val).2
      = ((m.insert crc32 val).1.entries.findIdx (hash_is (crc32 val.1)), true) ∧
    (m.insert crc32 val).1.data_.size_ = m.data_.size_ + 1 := by
  rw [Map.hasHash_iff] at h
  simp only [Map.insert, Map.begin, scan_return_eq, h, if_false]
  refine ⟨?_, ?_, ?_, ?_⟩
  · exact Vector.sort_wf _ _ (Vector.push_back_wf _ _ hwf)
  · simp only [Map.entries]
    rw [Vector.sort_toList _ _ (Vector.push_back_wf _ _ hwf), Vector.push_back_toList _ _ hwf]
  · rw [Map.find_eq]
  · simp only [Vector.sort]
    exact Vector.push_back_size _ _

theorem Map.size_pos_capacity {T : Type} (m : Map T) (hwf : m.WF) (it : Nat)
    (hit : it < m.data_.size_) : m.is_null it = false := by
  obtain ⟨h1, h2⟩ := hwf
  simp only [Map.is_null, Bool.and_eq_false_imp, beq_iff_eq]
  intro hc
  omega

theorem Map.index_present {Key T : Type} [Inhabited T] (crc32 : Key → Nat) (m : Map T)
    (key : Key) (hwf : m.WF) (h : m.HasHash (crc32 key)) :
    m.index crc32 key = (m, m.entries.findIdx (hash_is (crc32 key))) := by
  rw [Map.hasHash_iff, Map.entries_length m hwf] at h
  have hne : ¬ (m.entries.findIdx (hash_is (crc32 key)) = m.end_) := by
    simp only [Map.end_]; omega
  simp only [Map.index, Map.begin, scan_break_eq, Nat.zero_add, hne, if_false]
  rw [Map.size_pos_capacity m hwf _ h]
  simp

theorem Map.index_absent {Key T : Type} [Inhabited T] (crc32 : Key → Nat) (m : Map T)
    (key : Key) (hwf : m.WF) (h : ¬ m.HasHash (crc32 key)) :
    (m.index crc32 key).1.WF ∧
    (m.index crc32 key).1.entries
      = std_sort Map.key_cmp (m.entries ++ [(crc32 key, default)]) ∧
    (m.index crc32 key).2
      = (m.index crc32 key).1.entries.findIdx (hash_is (crc32 key)) ∧
    (m.index crc32 key).1.data_.size_ = m.data_.size_ + 1 := by
  obtain ⟨i1, i2, _, i4⟩ := Map.insert_absent crc32 m (key, default) hwf h
  have h' := h
  rw [Map.hasHash_iff, Map.entries_length m hwf] at h
  have hle := @List.findIdx_le_length _ (hash_is (crc32 key)) m.entries
  rw [Map.entries_length m hwf] at hle
  have heq : m.entries.findIdx (hash_is (crc32 key)) = m.end_ := by
    simp only [Map.end_]; omega
  have hwf2 : (⟨(m.insert crc32 (key, default)).1.data_.sort Map.key_cmp⟩ : Map T).WF :=
    Vector.sort_wf _ _ i1
  have hent : (⟨(m.insert crc32 (key, default)).1.data_.sort Map.key_cmp⟩ : Map T).entries
      = std_sort Map.key_cmp (m.entries ++ [(crc32 key, default)]) := by
    simp only [Map.entries]
    rw [Vector.sort_toList _ _ i1]
    have : (m.insert crc32 (key, default)).1.data_.toList
        = std_sort Map.key_cmp (m.entries ++ [(crc32 key, default)]) := i2
    rw [this, std_sort_of_sorted _ (std_sort_sorted _)]
    rfl
  have hsz : (⟨(m.insert crc32 (key, default)).1.data_.sort Map.key_cmp⟩ : Map T).data_.size_
      = m.data_.size_ + 1 := by
    simp only [Vector.sort]; exact i4
  have hidx : (⟨(m.insert crc32 (key, default)).1.data_.sort Map.key_cmp⟩ : Map T).entries.findIdx
      (hash_is (crc32 key)) < m.data_.size_ + 1 := by
    rw [← hsz, ← Map.entries_length _ hwf2, findIdx_lt_iff, hent]
    exact ⟨(crc32 key, default),
      (std_sort_perm _ _).mem_iff.2 (List.mem_append_right _ (List.mem_singleton_self _)), rfl⟩
  simp only [Map.index, Map.begin, scan_break_eq, Nat.zero_add, heq, if_true]
  rw [Map.size_pos_capacity _ hwf2 _ (by rw [hsz]; exact hidx)]
  simp only [Bool.false_eq_true, if_false]
  exact ⟨hwf2, hent, trivial, hsz⟩

theorem first_entry {T : Type} (h : Nat) (l : List (Nat × T)) (hex : ∃ e ∈ l, e.1 = h) :
    ∃ e, l[l.findIdx (hash_is h)]? = some e ∧ e.1 = h ∧
      ∀ j e1, j < l.findIdx (hash_is h) → l[j]? = some e1 → e1.1 ≠ h := by
  have hlt := (findIdx_lt_iff h l).2 hex
  refine ⟨l[l.findIdx (hash_is h)], List.getElem?_eq_getElem hlt, findIdx_hash h l hlt, ?_⟩
  intro j e1 hj hje
  have hjl : j < l.length := by omega
  rw [List.getElem?_eq_getElem hjl] at hje
  have := findIdx_first h l j hj hjl
  rw [Option.some.inj hje] at this
  exact this

theorem Map.entries_slot {T : Type} (m : Map T) (it : Nat) (e : Nat × T)
    (h : m.entries[it]? = some e) : m.data_.data_[it]? = some e := by
  simp only [Map.entries, Vector.toList, List.getElem?_take] at h
  split at h
  · exact h
  · exact absurd h (by simp)

theorem lookup_unique {T : Type} (h : Nat) (l : List (Nat × T)) (x : Nat × T)
    (hx : x ∈ l) (hxh : x.1 = h) (huniq : ∀ e ∈ l, e.1 = h → e = x) :
    l[l.findIdx (hash_is h)]? = some x := by
  obtain ⟨e, he1, he2, _⟩ := first_entry h l ⟨x, hx, hxh⟩
  rw [he1, huniq e (List.getElem?_mem he1) he2]

theorem ascending_unique {T : Type} (l : List (Nat × T))
    (hl : l.Pairwise (fun a b => a.1 < b.1)) (x : Nat × T) (hx : x ∈ l) :
    ∀ e ∈ l, e.1 = x.1 → e = x :=
  fun _ he heq => List.inj_on_of_nodup_map (ascending_nodup l hl) he hx heq

theorem unique_after_insert {T : Type} (l l1 : List (Nat × T)) (x : Nat × T)
    (hp : l1.Perm (l ++ [x])) (habs : ¬ ∃ e ∈ l, e.1 = x.1) :
    x ∈ l1 ∧ ∀ e ∈ l1, e.1 = x.1 → e = x := by
  refine ⟨hp.mem_iff.2 (List.mem_append_right _ (List.mem_singleton_self _)), ?_⟩
  intro e he heq
  rcases List.mem_append.1 (hp.mem_iff.1 he) with h1 | h1
  · exact absurd ⟨e, h1, heq⟩ habs
  · exact List.mem_singleton.1 h1

theorem keys_nodup_after_insert {T : Type} (l : List (Nat × T)) (x : Nat × T)
    (hl : l.Pairwise (fun a b => a.1 < b.1)) (habs : ¬ ∃ e ∈ l, e.1 = x.1) :
    ((l ++ [x]).map Prod.fst).Nodup := by
  rw [List.map_append, List.nodup_append]
  refine ⟨ascending_nodup l hl, by simp, ?_⟩
  intro a ha hb
  simp only [List.map_cons, List.map_nil, List.mem_singleton] at hb
  obtain ⟨e, he, rfl⟩ := List.mem_map.1 ha
  exact habs ⟨e, he, hb⟩

theorem take_modify_comm {α : Type} (f : α → α) (i n : Nat) (l : List α) :
    (l.modify f i).take n = (l.take n).modify f i := by
  apply List.ext_getElem?
  intro j
  simp only [List.getElem?_take, List.getElem?_modify]
  split <;> simp

theorem Map.write_second_entries {T : Type} (m : Map T) (it : Nat) (v : T) :
    (m.write_second it v).entries = m.entries.modify (fun e => (e.1, v)) it := by
  simp only [Map.write_second, Map.entries, Vector.toList, take_modify_comm]

theorem Map.write_second_wf {T : Type} (m : Map T) (it : Nat) (v : T) (hwf : m.WF) :
    (m.write_second it v).WF := by
  obtain ⟨h1, h2⟩ := hwf
  exact ⟨h1, by simpa [Map.write_second] using h2⟩

theorem Map.write_second_size {T : Type} (m : Map T) (it : Nat) (v : T) :
    (m.write_second it v).data_.size_ = m.data_.size_ := rfl

theorem modify_second_keys {T : Type} (l : List (Nat × T)) (i : Nat) (v : T) :
    (l.modify (fun e => (e.1, v)) i).map Prod.fst = l.map Prod.fst := by
  apply List.ext_getElem?
  intro j
  simp only [List.getElem?_map, List.getElem?_modify]
  cases l[j]? with
  | none => rfl
  | some e => by_cases hij : i = j <;> simp [hij]

theorem findIdx_keys {T : Type} (h : Nat) (l l1 : List (Nat × T))
    (hk : l1.map Prod.fst = l.map Prod.fst) :
    l1.findIdx (hash_is h) = l.findIdx (hash_is h) := by
  induction l generalizing l1 with
  | nil =>
    cases l1 with
    | nil => rfl
    | cons a as => simp at hk
  | cons b bs ih =>
    cases l1 with
    | nil => simp at hk
    | cons a as =>
      simp only [List.map_cons, List.cons.injEq] at hk
      simp only [List.findIdx_cons, hash_is, hk.1, ih as hk.2]

theorem write_spec {T : Type} (h : Nat) (l : List (Nat × T)) (v : T)
    (hl : l.Pairwise (fun a b => a.1 < b.1)) (hex : ∃ e ∈ l, e.1 = h) :
    (l.modify (fun e => (e.1, v)) (l.findIdx (hash_is h))).Pairwise (fun a b => a.1 < b.1) ∧
    (h, v) ∈ l.modify (fun e => (e.1, v)) (l.findIdx (hash_is h)) ∧
    ∀ e, e.1 ≠ h → (e ∈ l.modify (fun e => (e.1, v)) (l.findIdx (hash_is h)) ↔ e ∈ l) := by
  obtain ⟨x, hx1, hx2, _⟩ := first_entry h l hex
  refine ⟨?_, ?_, ?_⟩
  · have hk := modify_second_keys l (l.findIdx (hash_is h)) v
    have h1 : (l.map Prod.fst).Pairwise (· < ·) := List.pairwise_map.2 hl
    rw [← hk] at h1
    exact List.pairwise_map.1 h1
  · apply List.getElem?_mem (n := l.findIdx (hash_is h))
    rw [List.getElem?_modify_eq, hx1]
    simp [hx2]
  · intro e he
    constructor
    · intro hmem
      obtain ⟨j, hj⟩ := List.getElem?_of_mem hmem
      rw [List.getElem?_modify] at hj
      by_cases hij : l.findIdx (hash_is h) = j
      · subst hij
        rw [hx1] at hj
        simp only [if_true, Option.map_eq_map, Option.map_some', Option.some.injEq] at hj
        rw [← hj] at he
        exact absurd hx2 he
      · cases hlj : l[j]? with
        | none => rw [hlj] at hj; simp at hj
        | some y =>
          rw [hlj] at hj
          simp only [hij, if_false, Option.map_eq_map, Option.map_some',
            Option.some.injEq] at hj
          rw [← hj]
          exact List.getElem?_mem hlj
    · intro hmem
      obtain ⟨j, hj⟩ := List.getElem?_of_mem hmem
      have hij : l.findIdx (hash_is h) ≠ j := by
        intro c
        subst c
        rw [hx1] at hj
        rw [Option.some.inj hj] at hx2
        exact he hx2
      apply List.getElem?_mem (n := j)
      rw [List.getElem?_modify_ne _ _ hij]
      exact hj

theorem Map.get_of_mem {Key T : Type} [Inhabited T] (crc32 : Key → Nat) (m : Map T)
    (k : Key) (w : T) (hwf : m.WF) (hasc : m.Ascending) (hmem : (crc32 k, w) ∈ m.entries) :
    m.get crc32 k = (m, some w) := by
  have hh : m.HasHash (crc32 k) := ⟨_, hmem, rfl⟩
  have hlook := lookup_unique (crc32 k) m.entries (crc32 k, w) hmem rfl
    (ascending_unique m.entries hasc (crc32 k, w) hmem)
  simp only [Map.get, Map.index_present crc32 m k hwf hh, Map.read_second,
    Map.entries_slot m _ _ hlook, Option.map_some']

theorem Map.assign_spec {Key T : Type} [Inhabited T] (crc32 : Key → Nat) (m : Map T)
    (k : Key) (v : T) (hwf : m.WF) (hasc : m.Ascending) :
    (m.assign crc32 k v).WF ∧ (m.assign crc32 k v).Ascending ∧
    (crc32 k, v) ∈ (m.assign crc32 k v).entries ∧
    (∀ e, e.1 ≠ crc32 k → (e ∈ (m.assign crc32 k v).entries ↔ e ∈ m.entries)) ∧
    (m.HasHash (crc32 k) → (m.assign crc32 k v).data_.size_ = m.data_.size_) ∧
    (¬ m.HasHash (crc32 k) → (m.assign crc32 k v).data_.size_ = m.data_.size_ + 1) := by
  by_cases hh : m.HasHash (crc32 k)
  · obtain ⟨w1, w2, w3⟩ := write_spec (crc32 k) m.entries v hasc hh
    simp only [Map.assign, Map.index_present crc32 m k hwf hh]
    refine ⟨Map.write_second_wf _ _ _ hwf, ?_, ?_, ?_, fun _ => rfl, fun c => absurd hh c⟩
    · simp only [Map.Ascending, Map.write_second_entries]; exact w1
    · simp only [Map.write_second_entries]; exact w2
    · simp only [Map.write_second_entries]; exact w3
  · obtain ⟨i1, i2, i3, i4⟩ := Map.index_absent crc32 m k hwf hh
    have hperm : (m.index crc32 k).1.entries.Perm (m.entries ++ [(crc32 k, default)]) := by
      rw [i2]; exact std_sort_perm _ _
    have hasc1 : (m.index crc32 k).1.entries.Pairwise (fun a b => a.1 < b.1) := by
      rw [i2]
      exact std_sort_ascending _ (keys_nodup_after_insert _ (crc32 k, default) hasc hh)
    have hh1 : ∃ e ∈ (m.index crc32 k).1.entries, e.1 = crc32 k :=
      ⟨_, hperm.mem_iff.2 (List.mem_append_right _ (List.mem_singleton_self _)), rfl⟩
    obtain ⟨w1, w2, w3⟩ := write_spec (crc32 k) _ v hasc1 hh1
    simp only [Map.assign]
    rw [i3]
    refine ⟨Map.write_second_wf _ _ _ i1, ?_, ?_, ?_, fun c => absurd c hh, fun _ => ?_⟩
    · simp only [Map.Ascending, Map.write_second_entries]; exact w1
    · simp only [Map.write_second_entries]; exact w2
    · intro e he
      simp only [Map.write_second_entries]
      rw [w3 e he, hperm.mem_iff, List.mem_append, List.mem_singleton]
      constructor
      · rintro (h1 | h1)
        · exact h1
        · rw [h1] at he; exact absurd rfl he
      · exact fun h1 => Or.inl h1
    · rw [Map.write_second_size]; exact i4

theorem Map.add_assign_of_mem {Key T : Type} [Inhabited T] [Add T] (crc32 : Key → Nat)
    (m : Map T) (k : Key) (w d : T) (hwf : m.WF) (hasc : m.Ascending)
    (hmem : (crc32 k, w) ∈ m.entries) :
    m.add_assign crc32 k d = some (m.assign crc32 k (w + d)) := by
  have hh : m.HasHash (crc32 k) := ⟨_, hmem, rfl⟩
  have hlook := lookup_unique (crc32 k) m.entries (crc32 k, w) hmem rfl
    (ascending_unique m.entries hasc (crc32 k, w) hmem)
  simp only [Map.add_assign, Map.assign, Map.index_present crc32 m k hwf hh, Map.read_second,
    Map.entries_slot m _ _ hlook, Option.map_some']

theorem Map.new_wf {T : Type} : (Map.new : Map T).WF := ⟨Nat.le_refl 0, rfl⟩

theorem Map.new_entries {T : Type} : (Map.new : Map T).entries = [] := rfl

theorem Map.new_ascending {T : Type} : (Map.new : Map T).Ascending := List.Pairwise.nil

theorem demo_scenario (crc32 : String → Nat) (h12 : crc32 "One" ≠ crc32 "Two")
    (h13 : crc32 "One" ≠ crc32 "Three") (h23 : crc32 "Two" ≠ crc32 "Three") :
    ∃ a b : Map Int,
      a = (((Map.new : Map Int).assign crc32 "One" 1).assign crc32 "Two" 2).assign
        crc32 "Three" 3 ∧
      a.get crc32 "One" = (a, some 1) ∧ a.get crc32 "Two" = (a, some 2) ∧
      a.get crc32 "Three" = (a, some 3) ∧ a.size = 3 ∧
      a.add_assign crc32 "One" 2 = some b ∧ b.get crc32 "One" = (b, some 3) ∧ b.size = 3 := by
  obtain ⟨w1, a1, m1, f1, _, z1⟩ :=
    Map.assign_spec crc32 (Map.new : Map Int) "One" 1 Map.new_wf Map.new_ascending
  have n1 : ¬ (Map.new : Map Int).HasHash (crc32 "One") := by
    rintro ⟨e, he, _⟩; rw [Map.new_entries] at he; cases he
  have z1 := z1 n1
  obtain ⟨w2, a2, m2, f2, _, z2⟩ :=
    Map.assign_spec crc32 ((Map.new : Map Int).assign crc32 "One" 1) "Two" 2 w1 a1
  have n2 : ¬ ((Map.new : Map Int).assign crc32 "One" 1).HasHash (crc32 "Two") := by
    rintro ⟨e, he, hh⟩
    have := (f1 e (by rw [hh]; exact fun c => h12 c.symm)).1 he
    rw [Map.new_entries] at this; cases this
  have z2 := z2 n2
  obtain ⟨w3, a3, m3, f3, _, z3⟩ :=
    Map.assign_spec crc32 (((Map.new : Map Int).assign crc32 "One" 1).assign crc32 "Two" 2)
      "Three" 3 w2 a2
  have n3 : ¬ (((Map.new : Map Int).assign crc32 "One" 1).assign crc32 "Two" 2).HasHash
      (crc32 "Three") := by
    rintro ⟨e, he, hh⟩
    have e2 := (f2 e (by rw [hh]; exact fun c => h23 c.symm)).1 he
    have := (f1 e (by rw [hh]; exact fun c => h13 c.symm)).1 e2
    rw [Map.new_entries] at this; cases this
  have z3 := z3 n3
  have p1 : (crc32 "One", (1 : Int)) ∈ ((((Map.new : Map Int).assign crc32 "One" 1).assign
      crc32 "Two" 2).assign crc32 "Three" 3).entries :=
    (f3 _ h13).2 ((f2 _ h12).2 m1)
  have p2 : (crc32 "Two", (2 : Int)) ∈ ((((Map.new : Map Int).assign crc32 "One" 1).assign
      crc32 "Two" 2).assign crc32 "Three" 3).entries :=
    (f3 _ h23).2 m2
  obtain ⟨w4, a4, m4, _, z4, _⟩ :=
    Map.assign_spec crc32 ((((Map.new : Map Int).assign crc32 "One" 1).assign
      crc32 "Two" 2).assign crc32 "Three" 3) "One" (1 + 2) w3 a3
  have z4 := z4 ⟨_, p1, rfl⟩
  refine ⟨_, _, rfl, Map.get_of_mem crc32 _ _ _ w3 a3 p1, Map.get_of_mem crc32 _ _ _ w3 a3 p2,
    Map.get_of_mem crc32 _ _ _ w3 a3 m3, ?_, Map.add_assign_of_mem crc32 _ _ _ _ w3 a3 p1,
    Map.get_of_mem crc32 _ _ _ w4 a4 m4, ?_⟩
  · show _ = 3
    simp only [Map.size, Vector.size]
    rw [z3, z2, z1]; rfl
  · show _ = 3
    simp only [Map.size, Vector.size]
    rw [z4, z3, z2, z1]; rfl

/-! ## The claims -/

/-- C4: when some entry already has the hash of the key, `insert(key, value)`
leaves the map exactly as it was and returns `false` together with the
position of the first entry with that hash. -/
theorem C4_insert_duplicate_refused {Key T : Type} [Inhabited T] (crc32 : Key → Nat)
    (m : Map T) (key : Key) (value : T) (h : m.HasHash (crc32 key)) :
    (m.insert crc32 (key, value)).1 = m ∧
    (m.insert crc32 (key, value)).2.2 = false ∧
    ∃ e, m.entries[(m.insert crc32 (key, value)).2.1]? = some e ∧ e.1 = crc32 key ∧
      ∀ j e1, j < (m.insert crc32 (key, value)).2.1 → m.entries[j]? = some e1 →
        e1.1 ≠ crc32 key := by
  rw [Map.insert_present crc32 m (key, value) h]
  exact ⟨rfl, rfl, first_entry _ _ h⟩

set_option maxRecDepth 100000 in
theorem C4_insert_duplicate_refused_witness :
    demo_one.HasHash (demo_crc32 "One") ∧
    (demo_one.insert demo_crc32 ("One", 5)).1 = demo_one ∧
    (demo_one.insert demo_crc32 ("One", 5)).2.2 = false ∧
    ∃ e, demo_one.entries[(demo_one.insert demo_crc32 ("One", 5)).2.1]? = some e ∧
      e.1 = demo_crc32 "One" ∧
      ∀ j e1, j < (demo_one.insert demo_crc32 ("One", 5)).2.1 →
        demo_one.entries[j]? = some e1 → e1.1 ≠ demo_crc32 "One" :=
  ⟨by decide, C4_insert_duplicate_refused demo_crc32 demo_one "One" 5 (by decide)⟩

/-- C6: `at(key)` never changes the map; it throws `std::out_of_range`
exactly when no entry has the hash of the key, and otherwise returns the slot
of the first entry with that hash, whose `second` is that entry's value. -/
theorem C6_at_fails_iff_absent {Key T : Type} (crc32 : Key → Nat) (m : Map T) (key : Key) :
    (m.at_ crc32 key).1 = m ∧
    ((m.at_ crc32 key).2 = Except.error MapError.out_of_range ↔ ¬ m.HasHash (crc32 key)) ∧
    (m.HasHash (crc32 key) → ∃ it e, (m.at_ crc32 key).2 = Except.ok it ∧
      m.entries[it]? = some e ∧ e.1 = crc32 key ∧ m.read_second it = some e.2 ∧
      ∀ j e1, j < it → m.entries[j]? = some e1 → e1.1 ≠ crc32 key) := by
  by_cases h : m.HasHash (crc32 key)
  · have h2 := (Map.hasHash_iff m _).1 h
    have hat : m.at_ crc32 key = (m, Except.ok (m.entries.findIdx (hash_is (crc32 key)))) := by
      simp only [Map.at_, Map.begin, scan_return_eq, h2, if_true, Nat.zero_add]
    rw [hat]
    refine ⟨rfl, ⟨fun c => (by cases c), fun c => absurd h c⟩, fun _ => ?_⟩
    obtain ⟨e, he1, he2, he3⟩ := first_entry _ _ h
    refine ⟨_, e, rfl, he1, he2, ?_, he3⟩
    simp only [Map.read_second, Map.entries_slot m _ e he1, Option.map_some']
  · have h2 : ¬ (m.entries.findIdx (hash_is (crc32 key)) < m.entries.length) :=
      fun c => h ((Map.hasHash_iff m _).2 c)
    have hat : m.at_ crc32 key = (m, Except.error MapError.out_of_range) := by
      simp only [Map.at_, Map.begin, scan_return_eq, h2, if_false]
    rw [hat]
    exact ⟨rfl, ⟨fun _ => h, fun _ => rfl⟩, fun c => absurd c h⟩

/-- C7: on a well-formed map `find(key)` is the position of the first entry
whose hash is the hash of the key when there is one and `end()` otherwise, and
`count(key)` is `1` when `find(key) != end()` and `0` when it is `end()`. -/
theorem C7_find_first_and_count {Key T : Type} (crc32 : Key → Nat) (m : Map T) (key : Key)
    (hwf : m.WF) :
    (m.HasHash (crc32 key) → m.find crc32 key < m.end_ ∧
      ∃ e, m.entries[m.find crc32 key]? = some e ∧ e.1 = crc32 key ∧
        ∀ j e1, j < m.find crc32 key → m.entries[j]? = some e1 → e1.1 ≠ crc32 key) ∧
    (¬ m.HasHash (crc32 key) → m.find crc32 key = m.end_) ∧
    (m.count crc32 key = 1 ↔ m.find crc32 key ≠ m.end_) ∧
    (m.count crc32 key = 0 ↔ m.find crc32 key = m.end_) ∧
    (m.count crc32 key = 0 ∨ m.count crc32 key = 1) := by
  have hlen := Map.entries_length m hwf
  refine ⟨fun h => ?_, fun h => ?_, ?_, ?_, ?_⟩
  · rw [Map.find_eq]
    refine ⟨?_, first_entry _ _ h⟩
    have := (Map.hasHash_iff m _).1 h
    simp only [Map.end_]
    omega
  · rw [Map.find_eq, Map.end_, ← hlen]
    exact (findIdx_eq_length_iff _ _).2 h
  · simp only [Map.count]
    split <;> simp_all
  · simp only [Map.count]
    split <;> simp_all
  · simp only [Map.count]
    split <;> simp

set_option maxRecDepth 100000 in
theorem C7_find_first_and_count_witness :
    demo_two.WF ∧ demo_two.find demo_crc32 "Two" = 1 ∧ demo_two.count demo_crc32 "Two" = 1 ∧
    demo_two.find demo_crc32 "Three" = demo_two.end_ ∧
    demo_two.count demo_crc32 "Three" = 0 := by
  have h := C7_find_first_and_count demo_crc32 demo_two "Three" (by decide)
  exact ⟨by decide, by decide, by decide, h.2.1 (by decide), h.2.2.2.1.2 (h.2.1 (by decide))⟩

/-- C5: on a well-formed map with no entry of the hash of `k`, `insert(k, v)`
returns `true` and the position of the entry `(Hash(k), v)`; afterwards the
size is one larger, `find(k)` is not `end()` and designates an entry of value
`v`, every entry present before is still present, and a map with strictly
ascending hashes stays so. -/
theorem C5_insert_find_round_trip {Key T : Type} [Inhabited T] (crc32 : Key → Nat)
    (m : Map T) (k : Key) (v : T) (hwf : m.WF) (habs : ¬ m.HasHash (crc32 k)) :
    (m.insert crc32 (k, v)).2.2 = true ∧
    (m.insert crc32 (k, v)).1.entries[(m.insert crc32 (k, v)).2.1]? = some (crc32 k, v) ∧
    (m.insert crc32 (k, v)).1.size = m.size + 1 ∧
    (m.insert crc32 (k, v)).1.find crc32 k ≠ (m.insert crc32 (k, v)).1.end_ ∧
    (∃ e, (m.insert crc32 (k, v)).1.entries[(m.insert crc32 (k, v)).1.find crc32 k]? = some e ∧
      e.2 = v) ∧
    (∀ e ∈ m.entries, e ∈ (m.insert crc32 (k, v)).1.entries) ∧
    (m.insert crc32 (k, v)).1.entries.Perm ((crc32 k, v) :: m.entries) ∧
    (m.insert crc32 (k, v)).1.WF ∧
    (m.Ascending → (m.insert crc32 (k, v)).1.Ascending) := by
  obtain ⟨hw, hent, hret, hsz⟩ := Map.insert_absent crc32 m (k, v) hwf habs
  have hperm : (m.insert crc32 (k, v)).1.entries.Perm (m.entries ++ [(crc32 k, v)]) := by
    rw [hent]; exact std_sort_perm _ _
  obtain ⟨hmem, huniq⟩ := unique_after_insert _ _ (crc32 k, v) hperm habs
  have hlook := lookup_unique (crc32 k) _ (crc32 k, v) hmem rfl huniq
  have hlt : (m.insert crc32 (k, v)).1.entries.findIdx (hash_is (crc32 k))
      < (m.insert crc32 (k, v)).1.entries.length :=
    (findIdx_lt_iff _ _).2 ⟨_, hmem, rfl⟩
  refine ⟨?_, ?_, hsz, ?_, ?_, ?_, ?_, hw, ?_⟩
  · rw [hret]
  · rw [hret]; exact hlook
  · rw [Map.find_eq, Map.end_, ← Map.entries_length _ hw]
    omega
  · rw [Map.find_eq]
    exact ⟨_, hlook, rfl⟩
  · intro e he
    exact hperm.mem_iff.2 (List.mem_append_left _ he)
  · exact hperm.trans (List.perm_append_singleton _ _)
  · intro hasc
    simp only [Map.Ascending]
    rw [hent]
    exact std_sort_ascending _ (keys_nodup_after_insert _ (crc32 k, v) hasc habs)

set_option maxRecDepth 100000 in
theorem C5_insert_find_round_trip_witness :
    demo_one.WF ∧ ¬ demo_one.HasHash (demo_crc32 "Two") ∧
    (demo_one.insert demo_crc32 ("Two", 2)).1.entries = [(290, 1), (314, 2)] ∧
    (demo_one.insert demo_crc32 ("Two", 2)).1.find demo_crc32 "Two"
      ≠ (demo_one.insert demo_crc32 ("Two", 2)).1.end_ :=
  ⟨by decide, by decide, by decide,
    (C5_insert_find_round_trip demo_crc32 demo_one "Two" 2 (by decide) (by decide)).2.2.2.1⟩

/-- C1: on a well-formed map with strictly ascending hashes, after `m[k] = v`
a read `m[k]` gives `v` and leaves the map (so its size) as it is, and the
read `m[k1]` of every present key `k1` with another hash gives what it gave
before the assignment. In the scenario of `main`, with pairwise distinct
hashes for "One", "Two", "Three": after assigning 1, 2, 3 to an empty map the
reads give 1, 2, 3 and the size is 3, and after `m["One"] += 2` the read
`m["One"]` gives 3 with the size still 3. -/
theorem C1_assign_then_read :
    (∀ (Key T : Type) [Inhabited T] (crc32 : Key → Nat) (m : Map T) (k : Key) (v : T),
      m.WF → m.Ascending →
        ((m.assign crc32 k v).get crc32 k).2 = some v ∧
        ((m.assign crc32 k v).get crc32 k).1.size = (m.assign crc32 k v).size ∧
        (∀ k1 : Key, m.HasHash (crc32 k1) → crc32 k1 ≠ crc32 k →
          ((m.assign crc32 k v).get crc32 k1).2 = (m.get crc32 k1).2)) ∧
    (∀ crc32 : String → Nat, crc32 "One" ≠ crc32 "Two" → crc32 "One" ≠ crc32 "Three" →
      crc32 "Two" ≠ crc32 "Three" →
      ∃ a b : Map Int,
        a = (((Map.new : Map Int).assign crc32 "One" 1).assign crc32 "Two" 2).assign
          crc32 "Three" 3 ∧
        a.get crc32 "One" = (a, some 1) ∧ a.get crc32 "Two" = (a, some 2) ∧
        a.get crc32 "Three" = (a, some 3) ∧ a.size = 3 ∧
        a.add_assign crc32 "One" 2 = some b ∧ b.get crc32 "One" = (b, some 3) ∧
        b.size = 3) := by
  refine ⟨?_, demo_scenario⟩
  intro Key T _ crc32 m k v hwf hasc
  obtain ⟨w1, a1, m1, f1, _, _⟩ := Map.assign_spec crc32 m k v hwf hasc
  have hget := Map.get_of_mem crc32 _ k v w1 a1 m1
  refine ⟨by rw [hget], by rw [hget], ?_⟩
  intro k1 ⟨e, he, hek⟩ hne
  have he0 : (crc32 k1, e.2) ∈ m.entries := by rw [← hek]; exact he
  have he1 : (crc32 k1, e.2) ∈ (m.assign crc32 k v).entries := (f1 _ hne).2 he0
  rw [Map.get_of_mem crc32 _ k1 e.2 w1 a1 he1, Map.get_of_mem crc32 m k1 e.2 hwf hasc he0]

set_option maxRecDepth 100000 in
theorem C1_assign_then_read_witness :
    demo_two.WF ∧ demo_two.Ascending ∧ demo_two.HasHash (demo_crc32 "Two") ∧
    ((demo_two.assign demo_crc32 "One" 7).get demo_crc32 "One").2 = some 7 ∧
    ((demo_two.assign demo_crc32 "One" 7).get demo_crc32 "Two").2 = some 2 ∧
    ∃ a b : Map Int,
      a = (((Map.new : Map Int).assign demo_crc32 "One" 1).assign demo_crc32 "Two" 2).assign
        demo_crc32 "Three" 3 ∧
      a.get demo_crc32 "One" = (a, some 1) ∧ a.get demo_crc32 "Two" = (a, some 2) ∧
      a.get demo_crc32 "Three" = (a, some 3) ∧ a.size = 3 ∧
      a.add_assign demo_crc32 "One" 2 = some b ∧ b.get demo_crc32 "One" = (b, some 3) ∧
      b.size = 3 := by
  have g := C1_assign_then_read.1 String Int demo_crc32 demo_two "One" 7 (by decide) (by decide)
  refine ⟨by decide, by decide, by decide, g.1, ?_,
    C1_assign_then_read.2 demo_crc32 (by decide) (by decide) (by decide)⟩
  rw [g.2.2 "Two" (by decide) (by decide)]
  decide

/-- C2: on a well-formed map, `m[k]` for a key whose hash no entry has adds
exactly the entry `(Hash(k), T())`, so the size grows by one, and returns the
slot of that entry, whose value is the default; for a key whose hash some entry
has it leaves the map as it is and returns the slot of the first entry with
that hash, whose `second` is that entry's value. -/
theorem C2_auto_vivification {Key T : Type} [Inhabited T] (crc32 : Key → Nat) (m : Map T)
    (k : Key) (hwf : m.WF) :
    (¬ m.HasHash (crc32 k) →
      (m.index crc32 k).1.entries.Perm ((crc32 k, default) :: m.entries) ∧
      (m.index crc32 k).1.size = m.size + 1 ∧
      (m.index crc32 k).1.entries[(m.index crc32 k).2]? = some (crc32 k, default) ∧
      (m.index crc32 k).1.read_second (m.index crc32 k).2 = some default) ∧
    (m.HasHash (crc32 k) →
      (m.index crc32 k).1 = m ∧
      ∃ e, m.entries[(m.index crc32 k).2]? = some e ∧ e.1 = crc32 k ∧
        m.read_second (m.index crc32 k).2 = some e.2 ∧
        ∀ j e1, j < (m.index crc32 k).2 → m.entries[j]? = some e1 → e1.1 ≠ crc32 k) := by
  constructor
  · intro hh
    obtain ⟨i1, i2, i3, i4⟩ := Map.index_absent crc32 m k hwf hh
    have hperm : (m.index crc32 k).1.entries.Perm (m.entries ++ [(crc32 k, default)]) := by
      rw [i2]; exact std_sort_perm _ _
    obtain ⟨hmem, huniq⟩ := unique_after_insert _ _ (crc32 k, default) hperm hh
    have hlook := lookup_unique (crc32 k) _ (crc32 k, default) hmem rfl huniq
    rw [← i3] at hlook
    refine ⟨hperm.trans (List.perm_append_singleton _ _), i4, hlook, ?_⟩
    simp only [Map.read_second, Map.entries_slot _ _ _ hlook, Option.map_some']
  · intro hh
    rw [Map.index_present crc32 m k hwf hh]
    obtain ⟨e, he1, he2, he3⟩ := first_entry _ _ hh
    refine ⟨rfl, e, he1, he2, ?_, he3⟩
    simp only [Map.read_second, Map.entries_slot m _ e he1, Option.map_some']

set_option maxRecDepth 100000 in
theorem C2_auto_vivification_witness :
    demo_one.WF ∧ ¬ demo_one.HasHash (demo_crc32 "Two") ∧
    (demo_one.index demo_crc32 "Two").1.size = demo_one.size + 1 ∧
    (demo_one.index demo_crc32 "Two").1.entries = [(290, 1), (314, 0)] ∧
    demo_one.HasHash (demo_crc32 "One") ∧ (demo_one.index demo_crc32 "One").1 = demo_one :=
  ⟨by decide, by decide,
    ((C2_auto_vivification demo_crc32 demo_one "Two" (by decide)).1 (by decide)).2.1,
    by decide, by decide,
    ((C2_auto_vivification demo_crc32 demo_one "One" (by decide)).2 (by decide)).1⟩

theorem Map.run_invariant {Key T : Type} [Inhabited T] (crc32 : Key → Nat) :
    (∀ (ops : List (Op Key T)) (m : Map T), Map.run crc32 Map.new ops = some m →
      m.WF ∧ m.Ascending ∧ (m.entries.map Prod.fst).Nodup) ∧
    (∀ ops : List (Op Key T),
      (∀ op ∈ ops, (∃ k v, op = Op.insert k v) ∨ (∃ k, op = Op.index k) ∨
        (∃ k v, op = Op.assign k v)) →
      ∃ m, Map.run crc32 Map.new ops = some m) := by
  have hstep : ∀ (m : Map T) (op : Op Key T) (m1 : Map T), m.WF → m.Ascending →
      m.step crc32 op = some m1 → m1.WF ∧ m1.Ascending := by
    intro m op m1 hwf hasc hs
    cases op with
    | insert key value =>
      simp only [Map.step, Option.some.injEq] at hs
      subst hs
      by_cases hh : m.HasHash (crc32 key)
      · rw [Map.insert_present crc32 m (key, value) hh]; exact ⟨hwf, hasc⟩
      · obtain ⟨i1, i2, _, _⟩ := Map.insert_absent crc32 m (key, value) hwf hh
        refine ⟨i1, ?_⟩
        simp only [Map.Ascending]
        rw [i2]
        exact std_sort_ascending _ (keys_nodup_after_insert _ (crc32 key, value) hasc hh)
    | erase_key key =>
      simp only [Map.step, Map.erase, Map.erase_pos, Map.vector_erase_no_argument,
        Option.map_none'] at hs
      split at hs
      · simp only [Option.map_some', Option.some.injEq] at hs
        subst hs; exact ⟨hwf, hasc⟩
      · simp at hs
    | erase_pos pos =>
      simp [Map.step, Map.erase_pos, Map.vector_erase_no_argument] at hs
    | index key =>
      simp only [Map.step, Option.some.injEq] at hs
      subst hs
      by_cases hh : m.HasHash (crc32 key)
      · rw [Map.index_present crc32 m key hwf hh]; exact ⟨hwf, hasc⟩
      · obtain ⟨i1, i2, _, _⟩ := Map.index_absent crc32 m key hwf hh
        refine ⟨i1, ?_⟩
        simp only [Map.Ascending]
        rw [i2]
        exact std_sort_ascending _ (keys_nodup_after_insert _ (crc32 key, default) hasc hh)
    | assign key value =>
      simp only [Map.step, Option.some.injEq] at hs
      subst hs
      obtain ⟨w1, a1, _⟩ := Map.assign_spec crc32 m key value hwf hasc
      exact ⟨w1, a1⟩
  have hrun : ∀ (ops : List (Op Key T)) (m0 m : Map T), m0.WF → m0.Ascending →
      Map.run crc32 m0 ops = some m → m.WF ∧ m.Ascending := by
    intro ops
    induction ops with
    | nil =>
      intro m0 m hwf hasc hr
      simp only [Map.run, Option.some.injEq] at hr
      subst hr; exact ⟨hwf, hasc⟩
    | cons op ops ih =>
      intro m0 m hwf hasc hr
      simp only [Map.run] at hr
      cases hs : m0.step crc32 op with
      | none => rw [hs] at hr; simp at hr
      | some m1 =>
        rw [hs] at hr
        obtain ⟨w1, a1⟩ := hstep m0 op m1 hwf hasc hs
        exact ih m1 m w1 a1 hr
  constructor
  · intro ops m hr
    obtain ⟨w, a⟩ := hrun ops Map.new m Map.new_wf Map.new_ascending hr
    exact ⟨w, a, ascending_nodup _ a⟩
  · intro ops
    generalize (Map.new : Map T) = m0
    induction ops generalizing m0 with
    | nil => intro _; exact ⟨m0, rfl⟩
    | cons op ops ih =>
      intro hall
      have hrest : ∀ op1 ∈ ops, (∃ k v, op1 = Op.insert k v) ∨ (∃ k, op1 = Op.index k) ∨
          (∃ k v, op1 = Op.assign k v) := fun op1 h1 => hall op1 (List.mem_cons_of_mem _ h1)
      rcases hall op (List.mem_cons_self _ _) with ⟨k, v, rfl⟩ | ⟨k, rfl⟩ | ⟨k, v, rfl⟩
      · exact ih _ hrest
      · exact ih _ hrest
      · exact ih _ hrest

/-- C8: `erase(key)` at a key whose hash some entry has. On every well-formed
map `erase(key)` of such a key reaches `erase(pos)`, whose call
`data_.erase()` names no member of `Vector`: it has no result and nothing is
removed; so it is on the map holding only `("One", 1)` with `erase("One")`.
For a key whose hash no entry has, `erase(key)` returns 0 and the map as it
was. -/
theorem C8_erase_present_key_no_result :
    (∀ (Key T : Type) (crc32 : Key → Nat) (m : Map T) (k : Key), m.WF →
      (m.HasHash (crc32 k) → m.erase crc32 k = none) ∧
      (¬ m.HasHash (crc32 k) → m.erase crc32 k = some (m, 0))) ∧
    demo_one.WF ∧ demo_one.Ascending ∧ demo_one.HasHash (demo_crc32 "One") ∧
    demo_one.find demo_crc32 "One" = 0 ∧ demo_one.end_ = 1 ∧
    demo_one.erase_pos 0 = none ∧
    demo_one.erase demo_crc32 "One" = none ∧
    ¬ demo_one.HasHash (demo_crc32 "Two") ∧
    demo_one.erase demo_crc32 "Two" = some (demo_one, 0) := by
  refine ⟨?_, ?_⟩
  · intro Key T crc32 m k hwf
    have hlen := Map.entries_length m hwf
    constructor
    · intro hh
      have hlt := (Map.hasHash_iff m _).1 hh
      have hne : ¬ (m.find crc32 k = m.end_) := by
        rw [Map.find_eq, Map.end_]; omega
      simp only [Map.erase, hne, if_false, Map.erase_pos, Map.vector_erase_no_argument,
        Option.map_none']
    · intro hh
      have heq : m.find crc32 k = m.end_ := by
        rw [Map.find_eq, Map.end_, ← hlen]
        exact (findIdx_eq_length_iff _ _).2 hh
      simp only [Map.erase, heq, if_true]
  · set_option maxRecDepth 100000 in decide

/-- C9: `lower_bound` and `upper_bound` at the boundary. On the empty map the
loops read the slot at `begin() == end()`, which does not exist, for every
key; on the map holding only `("One", 1)` they read every slot of the buffer
and then past its last slot when no entry has a hash at or above (for
`upper_bound`: above) the hash of the key. Neither returns `end()`. When an
entry satisfies the condition the loops stop at the first such entry. -/
theorem C9_bounds_read_past_end :
    (∀ (Key T : Type) (crc32 : Key → Nat) (key : Key),
      (Map.new : Map T).lower_bound crc32 key = none ∧
      (Map.new : Map T).upper_bound crc32 key = none) ∧
    demo_one.WF ∧ demo_one.Ascending ∧ demo_one.entries = [(290, 1)] ∧
    demo_crc32 "Two" = 314 ∧
    demo_one.lower_bound demo_crc32 "Two" = none ∧
    demo_one.upper_bound demo_crc32 "Two" = none ∧
    demo_one.upper_bound demo_crc32 "One" = none ∧
    demo_one.lower_bound demo_crc32 "One" = some 0 ∧
    demo_two.lower_bound demo_crc32 "Two" = some 1 ∧
    demo_two.upper_bound demo_crc32 "One" = some 1 := by
  refine ⟨fun _ _ _ _ => ⟨rfl, rfl⟩, ?_⟩
  set_option maxRecDepth 100000 in decide

/-- C10: `insert(pos, val)` at a key whose hash an entry already has. On the
map holding only `("One", 1)`, `insert(begin(), {"One", 5})` appends a second
entry with the same hash, so the map has two entries, while `insert({"One",
5})` leaves the map with its one entry and returns `false`. When no entry has
the hash of the key the two calls give the same map and the same position,
whatever `pos` is. -/
theorem C10_hint_insert_adds_duplicate :
    (∀ (Key T : Type) [Inhabited T] (crc32 : Key → Nat) (m : Map T) (pos : Nat) (key : Key)
      (value : T), ¬ m.HasHash (crc32 key) →
        (m.insert_hint crc32 pos (key, value)).1 = (m.insert crc32 (key, value)).1 ∧
        (m.insert_hint crc32 pos (key, value)).2 = (m.insert crc32 (key, value)).2.1) ∧
    demo_one.WF ∧ demo_one.HasHash (demo_crc32 "One") ∧ demo_one.entries = [(290, 1)] ∧
    (demo_one.insert_hint demo_crc32 demo_one.begin ("One", 5)).1.size = 2 ∧
    (290, 1) ∈ (demo_one.insert_hint demo_crc32 demo_one.begin ("One", 5)).1.entries ∧
    (290, 5) ∈ (demo_one.insert_hint demo_crc32 demo_one.begin ("One", 5)).1.entries ∧
    ¬ (demo_one.insert_hint demo_crc32 demo_one.begin ("One", 5)).1.Ascending ∧
    (demo_one.insert demo_crc32 ("One", 5)).1 = demo_one ∧
    (demo_one.insert demo_crc32 ("One", 5)).2.2 = false ∧
    (demo_one.insert demo_crc32 ("One", 5)).1.size = 1 := by
  refine ⟨?_, ?_⟩
  · intro Key T _ crc32 m pos key value hh
    have h2 : ¬ (m.entries.findIdx (hash_is (crc32 key)) < m.entries.length) :=
      fun c => hh ((Map.hasHash_iff m _).2 c)
    simp only [Map.insert_hint, Map.insert, Map.begin, scan_return_eq, h2, if_false,
      and_self]
  · set_option maxRecDepth 100000 in decide

/-! ## The vector operations -/

theorem fill_loop_length {α : Type} (val : α) :
    ∀ (n : Nat) (buf : List α) (i : Nat), (Vector.fill_loop val buf i n).length = buf.length := by
  intro n
  induction n with
  | zero => intro buf i; rfl
  | succ n ih => intro buf i; simp only [Vector.fill_loop]; rw [ih]; simp

theorem fill_loop_getElem? {α : Type} (val : α) :
    ∀ (n : Nat) (buf : List α) (i j : Nat), i + n ≤ buf.length →
      (Vector.fill_loop val buf i n)[j]? = if i ≤ j ∧ j < i + n then some val else buf[j]? := by
  intro n
  induction n with
  | zero =>
    intro buf i j _
    have : ¬ (i ≤ j ∧ j < i + 0) := by omega
    simp only [Vector.fill_loop, this, if_false]
  | succ n ih =>
    intro buf i j h
    simp only [Vector.fill_loop]
    rw [ih (buf.set i val) (i + 1) j (by simp; omega), List.getElem?_set]
    by_cases h1 : i + 1 ≤ j ∧ j < i + 1 + n
    · have h2 : i ≤ j ∧ j < i + (n + 1) := by omega
      simp only [h1, h2, and_self, if_true]
    · by_cases h3 : i = j
      · subst h3
        have h2 : i ≤ i ∧ i < i + (n + 1) := by omega
        have h4 : i < buf.length := by omega
        simp only [h1, h2, and_self, if_true, if_false, h4]
      · have h2 : ¬ (i ≤ j ∧ j < i + (n + 1)) := by omega
        simp only [h1, h2, h3, if_false]

theorem Vector.reserve_getElem? {α : Type} [Inhabited α] (v : Vector α) (c i : Nat)
    (h : v.WF) (hi : i < v.size_) : (v.reserve c).data_[i]? = v.data_[i]? := by
  have ht := Vector.reserve_toList v c h
  have hs := Vector.reserve_size v c
  simp only [Vector.toList] at ht
  have h1 : ((v.reserve c).data_.take (v.reserve c).size_)[i]? = (v.data_.take v.size_)[i]? := by
    rw [ht]
  rw [hs] at h1
  simpa [List.getElem?_take, hi] using h1

theorem resize_fill_spec {α : Type} (v1 : Vector α) (n : Nat) (val : α) (h : v1.WF)
    (hn : n ≤ v1.capacity_) :
    ({ (if n > v1.size_ then
          { v1 with data_ := Vector.fill_loop val v1.data_ v1.size_ (n - v1.size_) }
        else v1) with size_ := n } : Vector α).WF ∧
    ({ (if n > v1.size_ then
          { v1 with data_ := Vector.fill_loop val v1.data_ v1.size_ (n - v1.size_) }
        else v1) with size_ := n } : Vector α).capacity_ = v1.capacity_ ∧
    (∀ i, i < v1.size_ → i < n →
      ({ (if n > v1.size_ then
          { v1 with data_ := Vector.fill_loop val v1.data_ v1.size_ (n - v1.size_) }
        else v1) with size_ := n } : Vector α).data_[i]? = v1.data_[i]?) ∧
    (∀ i, v1.size_ ≤ i → i < n →
      ({ (if n > v1.size_ then
          { v1 with data_ := Vector.fill_loop val v1.data_ v1.size_ (n - v1.size_) }
        else v1) with size_ := n } : Vector α).data_[i]? = some val) := by
  obtain ⟨h1, h2⟩ := h
  by_cases hgt : n > v1.size_
  · rw [if_pos hgt]
    refine ⟨⟨hn, ?_⟩, rfl, ?_, ?_⟩
    · simp only [fill_loop_length]; exact h2
    · intro i hi _
      rw [fill_loop_getElem? val _ _ _ _ (by omega)]
      have : ¬ (v1.size_ ≤ i ∧ i < v1.size_ + (n - v1.size_)) := by omega
      simp only [this, if_false]
    · intro i hi hin
      rw [fill_loop_getElem? val _ _ _ _ (by omega)]
      have : v1.size_ ≤ i ∧ i < v1.size_ + (n - v1.size_) := by omega
      simp only [this, and_self, if_true]
  · rw [if_neg hgt]
    refine ⟨⟨hn, h2⟩, rfl, fun _ _ _ => rfl, ?_⟩
    intro i hi hin
    omega

theorem Vector.resize_val_spec {α : Type} [Inhabited α] (v : Vector α) (n : Nat) (val : α)
    (h : v.WF) :
    (v.resize_val n val).WF ∧ (v.resize_val n val).size_ = n ∧
    (v.resize_val n val).capacity_ = max v.capacity_ n ∧
    (∀ i, i < v.size_ → i < n → (v.resize_val n val).data_[i]? = v.data_[i]?) ∧
    (∀ i, v.size_ ≤ i → i < n → (v.resize_val n val).data_[i]? = some val) := by
  have hw1 : (if n > v.capacity_ then v.reserve n else v).WF := by
    split
    · exact Vector.reserve_wf v n h
    · exact h
  have hs1 : (if n > v.capacity_ then v.reserve n else v).size_ = v.size_ := by
    split
    · exact Vector.reserve_size v n
    · rfl
  have hc1 : (if n > v.capacity_ then v.reserve n else v).capacity_ = max v.capacity_ n := by
    split
    · rw [Vector.reserve_capacity]
    · omega
  have hg1 : ∀ i, i < v.size_ →
      (if n > v.capacity_ then v.reserve n else v).data_[i]? = v.data_[i]? := by
    intro i hi
    split
    · exact Vector.reserve_getElem? v n i h hi
    · rfl
  obtain ⟨r1, r2, r3, r4⟩ := resize_fill_spec _ n val hw1 (by rw [hc1]; omega)
  refine ⟨r1, rfl, r2.trans hc1, ?_, ?_⟩
  · intro i hi hin
    exact (r3 i (by rw [hs1]; exact hi) hin).trans (hg1 i hi)
  · intro i hi hin
    exact r4 i (by rw [hs1]; exact hi) hin

theorem Vector.resize_eq {α : Type} [Inhabited α] (v : Vector α) (n : Nat) :
    v.resize n = v.resize_val n default := rfl

theorem Vector.push_back_capacity {α : Type} [Inhabited α] (v : Vector α) (x : α) :
    (v.push_back x).capacity_ =
      if v.size_ ≥ v.capacity_ then (if v.capacity_ = 0 then 256 else v.capacity_ * 2)
      else v.capacity_ := by
  unfold Vector.push_back
  split
  · simp only [Vector.reserve_capacity, STD_VECTOR_CAPACITY]
    split <;> omega
  · rfl

theorem growth_step (c n : Nat) (hle : n ≤ c)
    (hg : (n = 0 ∧ c = 0) ∨ ∃ j, c = 256 * 2 ^ j ∧ ∀ j1, j1 < j → 256 * 2 ^ j1 < n) :
    ∃ j, (if n ≥ c then (if c = 0 then 256 else c * 2) else c) = 256 * 2 ^ j ∧
      n + 1 ≤ 256 * 2 ^ j ∧ ∀ j1, j1 < j → 256 * 2 ^ j1 < n + 1 := by
  rcases hg with ⟨h0, hc0⟩ | ⟨j, hc, hleast⟩
  · subst h0; subst hc0
    exact ⟨0, by simp, by simp, fun j1 h => absurd h (Nat.not_lt_zero _)⟩
  · have hpos : 0 < 2 ^ j := Nat.two_pow_pos j
    by_cases hn : n ≥ c
    · refine ⟨j + 1, ?_, ?_, ?_⟩
      · rw [if_pos hn, if_neg (by omega), hc, Nat.pow_succ]; omega
      · rw [Nat.pow_succ]; omega
      · intro j1 hj1
        have hmono : 2 ^ j1 ≤ 2 ^ j := Nat.pow_le_pow_right (by decide) (by omega)
        omega
    · refine ⟨j, ?_, ?_, ?_⟩
      · rw [if_neg hn, hc]
      · omega
      · intro j1 hj1
        have := hleast j1 hj1
        omega

theorem Vector.push_all_spec {α : Type} [Inhabited α] :
    ∀ (xs : List α) (v : Vector α), v.WF →
      ((v.size_ = 0 ∧ v.capacity_ = 0) ∨
        ∃ j, v.capacity_ = 256 * 2 ^ j ∧ ∀ j1, j1 < j → 256 * 2 ^ j1 < v.size_) →
      (v.push_all xs).WF ∧ (v.push_all xs).size_ = v.size_ + xs.length ∧
      (v.push_all xs).toList = v.toList ++ xs ∧
      (((v.push_all xs).size_ = 0 ∧ (v.push_all xs).capacity_ = 0) ∨
        ∃ j, (v.push_all xs).capacity_ = 256 * 2 ^ j ∧
          ∀ j1, j1 < j → 256 * 2 ^ j1 < (v.push_all xs).size_) := by
  intro xs
  induction xs with
  | nil => intro v hwf hg; exact ⟨hwf, rfl, by simp [Vector.push_all], hg⟩
  | cons x xs ih =>
    intro v hwf hg
    have hw1 := Vector.push_back_wf v x hwf
    have hs1 := Vector.push_back_size v x
    have ht1 := Vector.push_back_toList v x hwf
    have hg1 : ((v.push_back x).size_ = 0 ∧ (v.push_back x).capacity_ = 0) ∨
        ∃ j, (v.push_back x).capacity_ = 256 * 2 ^ j ∧
          ∀ j1, j1 < j → 256 * 2 ^ j1 < (v.push_back x).size_ := by
      obtain ⟨j, e1, _, e3⟩ := growth_step v.capacity_ v.size_ hwf.1 hg
      refine Or.inr ⟨j, ?_, ?_⟩
      · rw [Vector.push_back_capacity]; exact e1
      · rw [hs1]; exact e3
    obtain ⟨r1, r2, r3, r4⟩ := ih (v.push_back x) hw1 hg1
    have hstep : v.push_all (x :: xs) = (v.push_back x).push_all xs := rfl
    rw [hstep]
    refine ⟨r1, ?_, ?_, r4⟩
    · rw [r2, hs1, List.length_cons]; omega
    · rw [r3, ht1, List.append_assoc]; rfl

theorem Vector.empty_vector_wf {α : Type} : (Vector.new : Vector α).WF := ⟨Nat.le_refl 0, rfl⟩

/-- C12: `push_back` of the elements of any list `xs` on a default-constructed
vector gives size `xs.length`, the elements in push order and a capacity at
least the size: 0 for no push, otherwise `256 * 2 ^ j` for the least `j` with
`256 * 2 ^ j ≥ xs.length`. On a well-formed vector one `push_back` changes the
capacity only when `size_ == capacity_`, to 256 from 0 and to the double
otherwise. -/
theorem C12_push_back_growth {α : Type} [Inhabited α] :
    (∀ xs : List α,
      ((Vector.new : Vector α).push_all xs).size = xs.length ∧
      ((Vector.new : Vector α).push_all xs).toList = xs ∧
      xs.length ≤ ((Vector.new : Vector α).push_all xs).capacity ∧
      (xs.length = 0 → ((Vector.new : Vector α).push_all xs).capacity = 0) ∧
      (0 < xs.length → ∃ j, ((Vector.new : Vector α).push_all xs).capacity = 256 * 2 ^ j ∧
        xs.length ≤ 256 * 2 ^ j ∧ ∀ j1, xs.length ≤ 256 * 2 ^ j1 → j ≤ j1)) ∧
    (∀ (v : Vector α) (x : α), v.WF →
      (v.size ≠ v.capacity → (v.push_back x).capacity = v.capacity) ∧
      (v.size = v.capacity → v.capacity = 0 → (v.push_back x).capacity = 256) ∧
      (v.size = v.capacity → v.capacity ≠ 0 → (v.push_back x).capacity = v.capacity * 2)) := by
  constructor
  · intro xs
    obtain ⟨r1, r2, r3, r4⟩ := Vector.push_all_spec xs (Vector.new : Vector α) Vector.empty_vector_wf
      (Or.inl ⟨rfl, rfl⟩)
    have hsz : ((Vector.new : Vector α).push_all xs).size_ = xs.length := by
      rw [r2]; simp [Vector.new]
    have hcap : ((Vector.new : Vector α).push_all xs).size_
        ≤ ((Vector.new : Vector α).push_all xs).capacity_ := r1.1
    simp only [Vector.size, Vector.capacity]
    refine ⟨hsz, ?_, ?_, ?_, ?_⟩
    · rw [r3]; simp [Vector.new, Vector.toList]
    · omega
    · intro h0
      have hnil : xs = [] := List.length_eq_zero.1 h0
      subst hnil
      rfl
    · intro hpos
      rcases r4 with ⟨hz, _⟩ | ⟨j, hc, hleast⟩
      · omega
      · refine ⟨j, hc, by omega, ?_⟩
        intro j1 hj1
        by_contra hlt
        have := hleast j1 (by omega)
        omega
  · intro v x hwf
    obtain ⟨h1, _⟩ := hwf
    simp only [Vector.size, Vector.capacity, Vector.push_back_capacity]
    refine ⟨?_, ?_, ?_⟩
    · intro hne
      rw [if_neg (by omega)]
    · intro he h0
      rw [if_pos (by omega), if_pos h0]
    · intro he h0
      rw [if_pos (by omega), if_neg h0]

/-! ## Erasing from a vector -/

theorem swap_slots_length {α : Type} (buf : List α) (i j : Nat) :
    (Vector.swap_slots buf i j).length = buf.length := by
  unfold Vector.swap_slots
  split <;> simp

theorem erase_loop_length {α : Type} :
    ∀ (n : Nat) (buf : List α) (it : Nat), (Vector.erase_loop buf it n).length = buf.length := by
  intro n
  induction n with
  | zero => intro buf it; rfl
  | succ n ih => intro buf it; simp only [Vector.erase_loop]; rw [ih, swap_slots_length]

theorem swap_slots_cons {α : Type} (a : α) (l : List α) (i : Nat) :
    Vector.swap_slots (a :: l) (i + 1) (i + 2) = a :: Vector.swap_slots l i (i + 1) := by
  simp only [Vector.swap_slots, List.getElem?_cons_succ]
  split <;> simp_all

theorem erase_loop_cons {α : Type} (a : α) :
    ∀ (n : Nat) (l : List α) (i : Nat),
      Vector.erase_loop (a :: l) (i + 1) n = a :: Vector.erase_loop l i n := by
  intro n
  induction n with
  | zero => intro l i; rfl
  | succ n ih =>
    intro l i
    simp only [Vector.erase_loop]
    rw [swap_slots_cons, ih]

theorem erase_loop_zero {α : Type} :
    ∀ (n : Nat) (x : α) (l : List α), n ≤ l.length →
      Vector.erase_loop (x :: l) 0 n = l.take n ++ x :: l.drop n := by
  intro n
  induction n with
  | zero => intro x l _; simp [Vector.erase_loop]
  | succ n ih =>
    intro x l h
    cases l with
    | nil => simp at h
    | cons y l1 =>
      simp only [List.length_cons, Nat.add_le_add_iff_right] at h
      have hs : Vector.swap_slots (x :: y :: l1) 0 (0 + 1) = y :: x :: l1 := by
        simp [Vector.swap_slots]
      simp only [Vector.erase_loop]
      rw [hs, erase_loop_cons, ih x l1 h]
      simp

theorem erase_loop_take {α : Type} :
    ∀ (pos : Nat) (l : List α) (size : Nat), pos < size → size ≤ l.length →
      (Vector.erase_loop l pos (size - 1 - pos)).take (size - 1) = (l.take size).eraseIdx pos := by
  intro pos
  induction pos with
  | zero =>
    intro l size h1 h2
    cases l with
    | nil => simp at h2; omega
    | cons x l1 =>
      simp only [List.length_cons] at h2
      obtain ⟨s, rfl⟩ : ∃ s, size = s + 1 := ⟨size - 1, by omega⟩
      simp only [Nat.add_sub_cancel, Nat.sub_zero]
      rw [erase_loop_zero s x l1 (by omega), List.take_left' (by simp; omega)]
      simp
  | succ pos ih =>
    intro l size h1 h2
    cases l with
    | nil => simp at h2; omega
    | cons a l1 =>
      simp only [List.length_cons] at h2
      obtain ⟨s, rfl⟩ : ∃ s, size = s + 1 := ⟨size - 1, by omega⟩
      obtain ⟨t, rfl⟩ : ∃ t, s = t + 1 := ⟨s - 1, by omega⟩
      have hc : t + 1 + 1 - 1 - (pos + 1) = t + 1 - 1 - pos := by omega
      rw [hc, erase_loop_cons]
      have ih1 := ih l1 (t + 1) (by omega) (by omega)
      simp only [Nat.add_sub_cancel] at ih1 ⊢
      simp only [List.take_succ_cons, List.eraseIdx_cons_succ, List.cons.injEq, true_and]
      exact ih1

theorem Vector.erase_spec {α : Type} (v : Vector α) (pos : Nat) (h : v.WF)
    (hpos : pos < v.size_) :
    ∃ v1, v.erase pos = some v1 ∧ v1.WF ∧ v1.toList = v.toList.eraseIdx pos ∧
      v1.size_ = v.size_ - 1 ∧ v1.capacity_ = v.capacity_ := by
  obtain ⟨h1, h2⟩ := h
  have hne : ¬ pos = v.size_ := by omega
  have hpop : Vector.pop_back
      { v with data_ := Vector.erase_loop v.data_ pos (v.size_ - 1 - pos) }
      = ⟨v.size_ - 1, v.capacity_, Vector.erase_loop v.data_ pos (v.size_ - 1 - pos)⟩ := by
    simp only [Vector.pop_back]
    rw [if_pos (by show v.size_ > 0; omega)]
  have he : v.erase pos
      = some ⟨v.size_ - 1, v.capacity_, Vector.erase_loop v.data_ pos (v.size_ - 1 - pos)⟩ := by
    simp only [Vector.erase, hne, hpos, if_true, if_false, hpop]
  refine ⟨_, he, ⟨by simp only; omega, by simp only [erase_loop_length]; exact h2⟩, ?_, rfl, rfl⟩
  simp only [Vector.toList]
  exact erase_loop_take pos v.data_ v.size_ hpos (by omega)

theorem Vector.erase_some {α : Type} (v v1 : Vector α) (pos : Nat) (h : v.WF)
    (he : v.erase pos = some v1) :
    v1.WF ∧ v1.capacity_ = v.capacity_ ∧ v1.size_ ≤ v.size_ := by
  by_cases h1 : pos = v.size_
  · simp only [Vector.erase, h1, if_true, Option.some.injEq] at he
    subst he
    exact ⟨h, rfl, Nat.le_refl _⟩
  · by_cases h2 : pos < v.size_
    · obtain ⟨v2, e1, e2, _, e4, e5⟩ := Vector.erase_spec v pos h h2
      rw [e1] at he
      have := Option.some.inj he
      subst this
      exact ⟨e2, e5, by omega⟩
    · simp [Vector.erase, h1, h2] at he

theorem Vector.erase_range_loop_some {α : Type} :
    ∀ (fuel : Nat) (v v1 : Vector α) (it : Nat) (last : Int), v.WF →
      Vector.erase_range_loop fuel v it last = some v1 →
      v1.WF ∧ v1.capacity_ = v.capacity_ ∧ v1.size_ ≤ v.size_ := by
  intro fuel
  induction fuel with
  | zero => intro v v1 it last _ he; simp [Vector.erase_range_loop] at he
  | succ fuel ih =>
    intro v v1 it last hwf he
    simp only [Vector.erase_range_loop] at he
    split at he
    · have := Option.some.inj he
      subst this
      exact ⟨hwf, rfl, Nat.le_refl _⟩
    · cases hv : v.erase it with
      | none => rw [hv] at he; simp at he
      | some v2 =>
        rw [hv] at he
        simp only [Option.some_bind] at he
        obtain ⟨w2, c2, s2⟩ := Vector.erase_some v v2 it hwf hv
        obtain ⟨w1, c1, s1⟩ := ih v2 v1 (it + 1) (last - 1) w2 he
        exact ⟨w1, c1.trans c2, by omega⟩

theorem Vector.erase_range_some {α : Type} (v v1 : Vector α) (first last : Nat) (h : v.WF)
    (he : v.erase_range first last = some v1) :
    v1.WF ∧ v1.capacity_ = v.capacity_ ∧ v1.size_ ≤ v.size_ := by
  simp only [Vector.erase_range] at he
  split at he
  · have := Option.some.inj he
    subst this
    exact ⟨h, rfl, Nat.le_refl _⟩
  · exact Vector.erase_range_loop_some _ v v1 first last h he

theorem Vector.new_count_val_wf {α : Type} [Inhabited α] (count : Nat) (val : α) :
    (Vector.new_count_val count val : Vector α).WF :=
  ⟨Nat.le_refl _, by simp [Vector.new_count_val, fill_loop_length]⟩

theorem Vector.pop_back_wf {α : Type} (v : Vector α) (h : v.WF) :
    v.pop_back.WF ∧ v.pop_back.capacity_ = v.capacity_ := by
  obtain ⟨h1, h2⟩ := h
  unfold Vector.pop_back
  split
  · exact ⟨⟨by simp only; omega, h2⟩, rfl⟩
  · exact ⟨⟨h1, h2⟩, rfl⟩

theorem Vector.invariant_kept {α : Type} [Inhabited α] :
    (∀ v : Vector α, v.WF → v.size ≤ v.capacity) ∧
    (Vector.new : Vector α).WF ∧
    (∀ count, (Vector.new_count count : Vector α).WF) ∧
    (∀ count val, (Vector.new_count_val count val : Vector α).WF) ∧
    (∀ v : Vector α, v.WF →
      (∀ x, (v.push_back x).WF ∧ v.capacity ≤ (v.push_back x).capacity) ∧
      (v.pop_back.WF ∧ v.capacity ≤ v.pop_back.capacity) ∧
      (∀ n, (v.reserve n).WF ∧ v.capacity ≤ (v.reserve n).capacity) ∧
      (∀ n, (v.resize n).WF ∧ v.capacity ≤ (v.resize n).capacity) ∧
      (∀ n val, (v.resize_val n val).WF ∧ v.capacity ≤ (v.resize_val n val).capacity) ∧
      (v.clear.WF ∧ v.capacity ≤ v.clear.capacity) ∧
      (∀ pos, pos ≤ v.size → ∃ v1, v.erase pos = some v1) ∧
      (∀ pos v1, v.erase pos = some v1 → v1.WF ∧ v.capacity ≤ v1.capacity) ∧
      (∀ first last v1, v.erase_range first last = some v1 →
        v1.WF ∧ v.capacity ≤ v1.capacity) ∧
      (∀ other : Vector α, other.WF → (v.swap other).1.WF ∧ (v.swap other).2.WF)) := by
  refine ⟨fun v h => h.1, Vector.empty_vector_wf, fun count => ⟨Nat.le_refl _, by simp [Vector.new_count]⟩,
    Vector.new_count_val_wf, ?_⟩
  intro v h
  simp only [Vector.capacity, Vector.size]
  refine ⟨?_, ?_, ?_, ?_, ?_, ?_, ?_, ?_, ?_, ?_⟩
  · intro x
    refine ⟨Vector.push_back_wf v x h, ?_⟩
    rw [Vector.push_back_capacity]
    split
    · split <;> omega
    · exact Nat.le_refl _
  · obtain ⟨p1, p2⟩ := Vector.pop_back_wf v h
    exact ⟨p1, by omega⟩
  · intro n
    refine ⟨Vector.reserve_wf v n h, ?_⟩
    rw [Vector.reserve_capacity]; omega
  · intro n
    obtain ⟨r1, _, r3, _⟩ := Vector.resize_val_spec v n default h
    rw [Vector.resize_eq]
    exact ⟨r1, by rw [r3]; omega⟩
  · intro n val
    obtain ⟨r1, _, r3, _⟩ := Vector.resize_val_spec v n val h
    exact ⟨r1, by rw [r3]; omega⟩
  · exact ⟨⟨Nat.zero_le _, h.2⟩, Nat.le_refl _⟩
  · intro pos hp
    by_cases he : pos = v.size_
    · exact ⟨v, by simp only [Vector.erase, he, if_true]⟩
    · obtain ⟨v1, e1, _⟩ := Vector.erase_spec v pos h (by omega)
      exact ⟨v1, e1⟩
  · intro pos v1 he
    obtain ⟨e1, e2, _⟩ := Vector.erase_some v v1 pos h he
    exact ⟨e1, by omega⟩
  · intro first last v1 he
    obtain ⟨e1, e2, _⟩ := Vector.erase_range_some v v1 first last h he
    exact ⟨e1, by omega⟩
  · intro other ho
    exact ⟨ho, h⟩

/-- C14: on a well-formed vector `reserve(n)` with `n <= capacity_` changes
nothing; with `n > capacity_` the capacity becomes `n`, the size is kept and
every slot below the size keeps its element. -/
theorem C14_reserve_frame {α : Type} [Inhabited α] (v : Vector α) (n : Nat) (hwf : v.WF) :
    (n ≤ v.capacity → v.reserve n = v) ∧
    (n > v.capacity → (v.reserve n).capacity = n ∧ (v.reserve n).size = v.size ∧
      (v.reserve n).toList = v.toList ∧
      ∀ i, i < v.size → (v.reserve n).data_[i]? = v.data_[i]?) := by
  simp only [Vector.capacity, Vector.size]
  constructor
  · intro hle
    simp only [Vector.reserve, hle, if_true]
  · intro hgt
    refine ⟨?_, Vector.reserve_size v n, Vector.reserve_toList v n hwf,
      fun i hi => Vector.reserve_getElem? v n i hwf hi⟩
    rw [Vector.reserve_capacity]; omega

set_option maxRecDepth 100000 in
theorem C14_reserve_frame_witness :
    demo_vec.WF ∧ demo_vec.reserve 100 = demo_vec ∧ (demo_vec.reserve 300).capacity = 300 ∧
    (demo_vec.reserve 300).toList = [1, 2, 3, 4] := by
  have h := C14_reserve_frame demo_vec 300 (by decide)
  have h2 := C14_reserve_frame demo_vec 100 (by decide)
  refine ⟨by decide, h2.1 (by decide), (h.2 (by decide)).1, ?_⟩
  rw [(h.2 (by decide)).2.2.1]
  decide

/-- C15: on a well-formed vector of size `len` and capacity `cap`,
`resize(n, val)` gives size `n`, keeps the elements below `min(len, n)`, puts
`val` in every slot from `len` up to `n`, and gives capacity `max(cap, n)`;
`resize(n)` does the same with the default value. -/
theorem C15_resize {α : Type} [Inhabited α] (v : Vector α) (n : Nat) (val : α) (hwf : v.WF) :
    ((v.resize_val n val).size = n ∧
      (∀ i, i < min v.size n → (v.resize_val n val).data_[i]? = v.data_[i]?) ∧
      (∀ i, v.size ≤ i → i < n → (v.resize_val n val).data_[i]? = some val) ∧
      (v.resize_val n val).capacity = max v.capacity n) ∧
    ((v.resize n).size = n ∧
      (∀ i, i < min v.size n → (v.resize n).data_[i]? = v.data_[i]?) ∧
      (∀ i, v.size ≤ i → i < n → (v.resize n).data_[i]? = some default) ∧
      (v.resize n).capacity = max v.capacity n) := by
  obtain ⟨_, r2, r3, r4, r5⟩ := Vector.resize_val_spec v n val hwf
  obtain ⟨_, d2, d3, d4, d5⟩ := Vector.resize_val_spec v n default hwf
  simp only [Vector.capacity, Vector.size, Vector.resize_eq]
  exact ⟨⟨r2, fun i hi => r4 i (by omega) (by omega), r5, r3⟩,
    ⟨d2, fun i hi => d4 i (by omega) (by omega), d5, d3⟩⟩

set_option maxRecDepth 100000 in
theorem C15_resize_witness :
    demo_vec.WF ∧ (demo_vec.resize_val 6 9).toList = [1, 2, 3, 4, 9, 9] ∧
    (demo_vec.resize 2).toList = [1, 2] ∧ (demo_vec.resize 2).capacity = 256 ∧
    (demo_vec.resize_val 300 9).capacity = max demo_vec.capacity 300 :=
  ⟨by decide, by decide, by decide, by decide,
    (C15_resize demo_vec 300 9 (by decide)).1.2.2.2⟩

/-- C16: on a well-formed vector of size `n`, `erase(pos)` at an index
`i < n` gives the sequence without the element at index `i`, the others in
their order, with size `n - 1` and the capacity as before; `erase(end())`,
also on an empty vector, gives the vector as it was. -/
theorem C16_erase_pos {α : Type} (v : Vector α) (hwf : v.WF) :
    (∀ i, i < v.size → ∃ v1, v.erase i = some v1 ∧ v1.toList = v.toList.eraseIdx i ∧
      v1.size = v.size - 1 ∧ v1.capacity = v.capacity) ∧
    v.erase v.size = some v := by
  simp only [Vector.capacity, Vector.size]
  constructor
  · intro i hi
    obtain ⟨v1, e1, _, e3, e4, e5⟩ := Vector.erase_spec v i hwf hi
    exact ⟨v1, e1, e3, e4, e5⟩
  · simp only [Vector.erase, if_true]

set_option maxRecDepth 100000 in
theorem C16_erase_pos_witness :
    demo_vec.WF ∧ (demo_vec.erase 1).map Vector.toList = some [1, 3, 4] ∧
    demo_vec.erase 4 = some demo_vec ∧
    (Vector.new : Vector Nat).erase 0 = some Vector.new :=
  ⟨by decide, by decide, (C16_erase_pos demo_vec (by decide)).2,
    (C16_erase_pos (Vector.new : Vector Nat) (by decide)).2⟩

/-- C17: `erase(first, last)` on the vector 1, 2, 3, 4. Every round erases at
`it` and then moves both `it` up and `last` down, so `erase(begin(), begin() +
2)` removes only the element 1 and leaves 2, 3, 4 (not 3, 4);
`erase(begin(), end())` leaves 2, 4; and for a range of odd length, as
`erase(begin(), begin() + 1)`, `it` steps over `last`, the loop never ends and
`erase(it)` runs off the buffer. With `first == last` nothing changes. -/
theorem C17_erase_range_skips :
    demo_vec.WF ∧ demo_vec.toList = [1, 2, 3, 4] ∧
    (demo_vec.erase_range 0 2).map Vector.toList = some [2, 3, 4] ∧
    (demo_vec.erase_range 0 4).map Vector.toList = some [2, 4] ∧
    demo_vec.erase_range 0 1 = none ∧
    demo_vec.erase_range 0 3 = none ∧
    demo_vec.erase_range 2 2 = some demo_vec := by
  set_option maxRecDepth 100000 in decide

/-! ## Comparing maps -/

theorem pair_lt_iff {T : Type} [LinearOrder T] (a b : Nat × T) :
    Map.pair_lt a b = true ↔ a.1 < b.1 ∨ (a.1 = b.1 ∧ a.2 < b.2) := by
  simp only [Map.pair_lt, Bool.or_eq_true, Bool.and_eq_true, decide_eq_true_eq,
    Bool.not_eq_true', decide_eq_false_iff_not]
  constructor
  · rintro (h | ⟨h1, h2⟩)
    · exact Or.inl h
    · by_cases h3 : a.1 < b.1
      · exact Or.inl h3
      · exact Or.inr ⟨by omega, h2⟩
  · rintro (h | ⟨h1, h2⟩)
    · exact Or.inl h
    · exact Or.inr ⟨by omega, h2⟩

theorem pair_lt_irrefl {T : Type} [LinearOrder T] (a : Nat × T) : Map.pair_lt a a = false := by
  rw [← Bool.not_eq_true, pair_lt_iff]
  rintro (h | ⟨_, h⟩)
  · omega
  · exact lt_irrefl _ h

theorem pair_lt_asymm {T : Type} [LinearOrder T] (a b : Nat × T)
    (h : Map.pair_lt a b = true) : Map.pair_lt b a = false := by
  rw [← Bool.not_eq_true, pair_lt_iff]
  rw [pair_lt_iff] at h
  rintro (h1 | ⟨h1, h2⟩)
  · rcases h with h | ⟨h, _⟩ <;> omega
  · rcases h with h | ⟨_, h⟩
    · omega
    · exact lt_asymm h h2

theorem pair_lt_total {T : Type} [LinearOrder T] (a b : Nat × T) (hne : a ≠ b) :
    Map.pair_lt a b = true ∨ Map.pair_lt b a = true := by
  rw [pair_lt_iff, pair_lt_iff]
  rcases Nat.lt_trichotomy a.1 b.1 with h | h | h
  · exact Or.inl (Or.inl h)
  · rcases lt_trichotomy a.2 b.2 with h2 | h2 | h2
    · exact Or.inl (Or.inr ⟨h, h2⟩)
    · exact absurd (Prod.ext h h2) hne
    · exact Or.inr (Or.inr ⟨h.symm, h2⟩)
  · exact Or.inr (Or.inl h)

theorem loops_first_diff {T : Type} [LinearOrder T] :
    ∀ (i : Nat) (xs ys : List (Nat × T)) (x y : Nat × T),
      xs[i]? = some x → ys[i]? = some y → x ≠ y → (∀ j, j < i → xs[j]? = ys[j]?) →
      Map.lt_loop xs ys = some (Map.pair_lt x y) ∧
      Map.gt_loop xs ys = some (Map.pair_lt y x) := by
  intro i
  induction i with
  | zero =>
    intro xs ys x y hx hy hne _
    cases xs with
    | nil => simp at hx
    | cons a xs1 =>
      cases ys with
      | nil => simp at hy
      | cons b ys1 =>
        simp only [List.getElem?_cons_zero, Option.some.injEq] at hx hy
        subst hx; subst hy
        simp only [Map.lt_loop, Map.gt_loop, Map.pair_gt]
        rcases pair_lt_total a b hne with h | h
        · have h2 := pair_lt_asymm a b h
          simp [h, h2]
        · have h2 := pair_lt_asymm b a h
          simp [h, h2]
  | succ i ih =>
    intro xs ys x y hx hy hne hpre
    cases xs with
    | nil => simp at hx
    | cons a xs1 =>
      cases ys with
      | nil => simp at hy
      | cons b ys1 =>
        simp only [List.getElem?_cons_succ] at hx hy
        have h0 := hpre 0 (Nat.succ_pos i)
        simp only [List.getElem?_cons_zero, Option.some.injEq] at h0
        subst h0
        have hrec := ih xs1 ys1 x y hx hy hne (fun j hj => by
          have := hpre (j + 1) (by omega)
          simpa only [List.getElem?_cons_succ] using this)
        simp only [Map.lt_loop, Map.gt_loop, Map.pair_gt, pair_lt_irrefl, Bool.false_eq_true,
          if_false]
        exact hrec

theorem loops_same {T : Type} [LinearOrder T] (xs : List (Nat × T)) :
    Map.lt_loop xs xs = some false ∧ Map.gt_loop xs xs = some false ∧
    Map.eq_loop xs xs = some true := by
  induction xs with
  | nil => exact ⟨rfl, rfl, rfl⟩
  | cons a xs ih =>
    simp only [Map.lt_loop, Map.gt_loop, Map.eq_loop, Map.pair_gt, pair_lt_irrefl,
      Bool.false_eq_true, if_false, ne_eq, not_true_eq_false]
    exact ih

theorem loops_trichotomy {T : Type} [LinearOrder T] :
    ∀ (xs ys : List (Nat × T)), xs.length = ys.length →
      (Map.lt_loop xs ys = some true ∧ Map.eq_loop xs ys = some false ∧
        Map.gt_loop xs ys = some false ∧ Map.lt_loop ys xs = some false ∧
        Map.gt_loop ys xs = some true) ∨
      (Map.lt_loop xs ys = some false ∧ Map.eq_loop xs ys = some true ∧
        Map.gt_loop xs ys = some false ∧ Map.lt_loop ys xs = some false ∧
        Map.gt_loop ys xs = some false) ∨
      (Map.lt_loop xs ys = some false ∧ Map.eq_loop xs ys = some false ∧
        Map.gt_loop xs ys = some true ∧ Map.lt_loop ys xs = some true ∧
        Map.gt_loop ys xs = some false) := by
  intro xs
  induction xs with
  | nil =>
    intro ys h
    cases ys with
    | nil => exact Or.inr (Or.inl ⟨rfl, rfl, rfl, rfl, rfl⟩)
    | cons b ys1 => simp at h
  | cons a xs1 ih =>
    intro ys h
    cases ys with
    | nil => simp at h
    | cons b ys1 =>
      simp only [List.length_cons, Nat.add_right_cancel_iff] at h
      by_cases hab : a = b
      · subst hab
        simp only [Map.lt_loop, Map.gt_loop, Map.eq_loop, Map.pair_gt, pair_lt_irrefl,
          Bool.false_eq_true, if_false, ne_eq, not_true_eq_false]
        exact ih ys1 h
      · rcases pair_lt_total a b hab with h1 | h1
        · have h2 := pair_lt_asymm a b h1
          refine Or.inl ?_
          simp [Map.lt_loop, Map.gt_loop, Map.eq_loop, Map.pair_gt, h1, h2, hab]
        · have h2 := pair_lt_asymm b a h1
          refine Or.inr (Or.inr ?_)
          simp [Map.lt_loop, Map.gt_loop, Map.eq_loop, Map.pair_gt, h1, h2, hab]

theorem pair_lt_eq_decide {T : Type} [LinearOrder T] (a b : Nat × T) :
    Map.pair_lt a b = decide (a.1 < b.1 ∨ (a.1 = b.1 ∧ a.2 < b.2)) := by
  apply Bool.eq_iff_iff.2
  rw [pair_lt_iff]
  simp

theorem Map.compare_cases {T : Type} [LinearOrder T] (a b : Map T) (ha : a.WF) (hb : b.WF) :
    (a.op_lt b = some true ∧ a.op_eq b = some false ∧ a.op_gt b = some false ∧
      b.op_gt a = some true) ∨
    (a.op_lt b = some false ∧ a.op_eq b = some true ∧ a.op_gt b = some false ∧
      b.op_gt a = some false) ∨
    (a.op_lt b = some false ∧ a.op_eq b = some false ∧ a.op_gt b = some true ∧
      b.op_gt a = some false) := by
  rcases Nat.lt_trichotomy a.size b.size with h | h | h
  · refine Or.inl ⟨?_, ?_, ?_, ?_⟩
    · simp only [Map.op_lt, h, if_true]
    · simp only [Map.op_eq, ne_eq, Nat.ne_of_lt h, not_false_eq_true, if_true]
    · simp only [Map.op_gt, gt_iff_lt, Nat.lt_asymm h, h, if_true, if_false]
    · simp only [Map.op_gt, gt_iff_lt, h, if_true]
  · have hlen : a.entries.length = b.entries.length := by
      rw [Map.entries_length a ha, Map.entries_length b hb]; exact h
    have hl : a.op_lt b = Map.lt_loop a.entries b.entries := by
      simp only [Map.op_lt, h, gt_iff_lt, Nat.lt_irrefl, if_false]
    have he : a.op_eq b = Map.eq_loop a.entries b.entries := by
      simp only [Map.op_eq, h, ne_eq, not_true_eq_false, if_false]
    have hg : a.op_gt b = Map.gt_loop a.entries b.entries := by
      simp only [Map.op_gt, h, gt_iff_lt, Nat.lt_irrefl, if_false]
    have hg2 : b.op_gt a = Map.gt_loop b.entries a.entries := by
      simp only [Map.op_gt, h, gt_iff_lt, Nat.lt_irrefl, if_false]
    rw [hl, he, hg, hg2]
    rcases loops_trichotomy a.entries b.entries hlen with
      ⟨t1, t2, t3, _, t5⟩ | ⟨t1, t2, t3, _, t5⟩ | ⟨t1, t2, t3, _, t5⟩
    · exact Or.inl ⟨t1, t2, t3, t5⟩
    · exact Or.inr (Or.inl ⟨t1, t2, t3, t5⟩)
    · exact Or.inr (Or.inr ⟨t1, t2, t3, t5⟩)
  · refine Or.inr (Or.inr ⟨?_, ?_, ?_, ?_⟩)
    · simp only [Map.op_lt, gt_iff_lt, Nat.lt_asymm h, h, if_true, if_false]
    · simp only [Map.op_eq, ne_eq, Nat.ne_of_gt h, not_false_eq_true, if_true]
    · simp only [Map.op_gt, gt_iff_lt, h, if_true]
    · simp only [Map.op_gt, gt_iff_lt, Nat.lt_asymm h, h, if_true, if_false]

/-- C11: `operator<` and `operator>` of two maps compare the sizes first: with
`size(a) < size(b)`, `a < b` is true and `a > b` false whatever the entries,
and the other way round with `size(a) > size(b)`. With equal sizes the first
index at which the (hash, value) pairs differ decides: `a < b` is true exactly
when the pair of `a` there is less than the pair of `b` (hash first, then
value), `a > b` exactly when it is greater; both are false when the entries
are the same. -/
theorem C11_ordering_sizes_first {T : Type} [LinearOrder T] (a b : Map T) :
    (a.size < b.size → a.op_lt b = some true ∧ a.op_gt b = some false) ∧
    (a.size > b.size → a.op_lt b = some false ∧ a.op_gt b = some true) ∧
    (a.size = b.size →
      (∀ (i : Nat) (x y : Nat × T), a.entries[i]? = some x → b.entries[i]? = some y → x ≠ y →
        (∀ j, j < i → a.entries[j]? = b.entries[j]?) →
        a.op_lt b = some (decide (x.1 < y.1 ∨ (x.1 = y.1 ∧ x.2 < y.2))) ∧
        a.op_gt b = some (decide (y.1 < x.1 ∨ (y.1 = x.1 ∧ y.2 < x.2)))) ∧
      (a.entries = b.entries → a.op_lt b = some false ∧ a.op_gt b = some false)) := by
  refine ⟨fun h => ⟨?_, ?_⟩, fun h => ⟨?_, ?_⟩, fun h => ⟨?_, ?_⟩⟩
  · simp only [Map.op_lt, h, if_true]
  · simp only [Map.op_gt, gt_iff_lt, Nat.lt_asymm h, h, if_true, if_false]
  · simp only [Map.op_lt, gt_iff_lt, Nat.lt_asymm h, h, if_true, if_false]
  · simp only [Map.op_gt, gt_iff_lt, h, if_true]
  · intro i x y hx hy hne hpre
    obtain ⟨l1, l2⟩ := loops_first_diff i a.entries b.entries x y hx hy hne hpre
    rw [← pair_lt_eq_decide, ← pair_lt_eq_decide]
    constructor
    · simp only [Map.op_lt, h, gt_iff_lt, Nat.lt_irrefl, if_false]; exact l1
    · simp only [Map.op_gt, h, gt_iff_lt, Nat.lt_irrefl, if_false]; exact l2
  · intro hsame
    obtain ⟨l1, l2, _⟩ := loops_same b.entries
    constructor
    · simp only [Map.op_lt, h, gt_iff_lt, Nat.lt_irrefl, if_false, hsame]; exact l1
    · simp only [Map.op_gt, h, gt_iff_lt, Nat.lt_irrefl, if_false, hsame]; exact l2

set_option maxRecDepth 100000 in
theorem C11_ordering_sizes_first_witness :
    demo_one.size < demo_two.size ∧ demo_one.op_lt demo_two = some true ∧
    demo_one.op_gt demo_two = some false ∧
    demo_two.op_lt (demo_two.assign demo_crc32 "One" 5) = some true ∧
    demo_two.op_gt (demo_two.assign demo_crc32 "One" 5) = some false ∧
    demo_two.op_lt demo_two = some false :=
  ⟨by decide, ((C11_ordering_sizes_first demo_one demo_two).1 (by decide)).1,
    ((C11_ordering_sizes_first demo_one demo_two).1 (by decide)).2, by decide, by decide,
    ((C11_ordering_sizes_first demo_two demo_two).2.2 rfl).2 rfl |>.1⟩

/-- C19: for two well-formed maps with a totally ordered mapped type exactly
one of `a < b`, `a == b`, `a > b` is true; `a < b` is `b > a`; `a <= b` is
true exactly when `a < b` or `a == b` is, and `a >= b` exactly when `a > b` or
`a == b` is. -/
theorem C19_comparison_trichotomy {T : Type} [LinearOrder T] (a b : Map T) (ha : a.WF)
    (hb : b.WF) :
    ((a.op_lt b = some true ∧ a.op_eq b = some false ∧ a.op_gt b = some false) ∨
      (a.op_lt b = some false ∧ a.op_eq b = some true ∧ a.op_gt b = some false) ∨
      (a.op_lt b = some false ∧ a.op_eq b = some false ∧ a.op_gt b = some true)) ∧
    a.op_lt b = b.op_gt a ∧
    (a.op_le b = some true ↔ (a.op_lt b = some true ∨ a.op_eq b = some true)) ∧
    (a.op_ge b = some true ↔ (a.op_gt b = some true ∨ a.op_eq b = some true)) ∧
    (a.op_ne b = some true ↔ a.op_eq b = some false) := by
  rcases Map.compare_cases a b ha hb with ⟨t1, t2, t3, t4⟩ | ⟨t1, t2, t3, t4⟩ | ⟨t1, t2, t3, t4⟩
  · refine ⟨Or.inl ⟨t1, t2, t3⟩, by rw [t1, t4], ?_, ?_, ?_⟩ <;>
      simp [Map.op_le, Map.op_ge, Map.op_ne, t1, t2, t3]
  · refine ⟨Or.inr (Or.inl ⟨t1, t2, t3⟩), by rw [t1, t4], ?_, ?_, ?_⟩ <;>
      simp [Map.op_le, Map.op_ge, Map.op_ne, t1, t2, t3]
  · refine ⟨Or.inr (Or.inr ⟨t1, t2, t3⟩), by rw [t1, t4], ?_, ?_, ?_⟩ <;>
      simp [Map.op_le, Map.op_ge, Map.op_ne, t1, t2, t3]

set_option maxRecDepth 100000 in
theorem C19_comparison_trichotomy_witness :
    demo_one.WF ∧ demo_two.WF ∧ demo_one.op_lt demo_two = demo_two.op_gt demo_one ∧
    demo_one.op_lt demo_two = some true ∧ demo_one.op_eq demo_two = some false ∧
    demo_one.op_le demo_two = some true ∧ demo_one.op_ge demo_two = some false :=
  ⟨by decide, by decide,
    (C19_comparison_trichotomy demo_one demo_two (by decide) (by decide)).2.1,
    by decide, by decide, by decide, by decide⟩

/-! ## Colliding keys and the order of inserts -/

theorem ascending_ext {T : Type} (l1 l2 : List (Nat × T))
    (h1 : l1.Pairwise (fun a b => a.1 < b.1)) (h2 : l2.Pairwise (fun a b => a.1 < b.1))
    (hmem : ∀ e, e ∈ l1 ↔ e ∈ l2) : l1 = l2 := by
  haveI : IsAntisymm (Nat × T) (fun a b => a.1 < b.1) :=
    ⟨fun a b hab hba => absurd hab (Nat.lt_asymm hba)⟩
  have n1 : l1.Nodup := List.Nodup.of_map Prod.fst (ascending_nodup l1 h1)
  have n2 : l2.Nodup := List.Nodup.of_map Prod.fst (ascending_nodup l2 h2)
  exact List.eq_of_perm_of_sorted ((List.perm_ext_iff_of_nodup n1 n2).2 hmem) h1 h2

theorem eq_loop_same {T : Type} [DecidableEq T] (xs : List (Nat × T)) :
    Map.eq_loop xs xs = some true := by
  induction xs with
  | nil => rfl
  | cons a xs ih =>
    simp only [Map.eq_loop, ne_eq, not_true_eq_false, if_false]
    exact ih

theorem Map.insert_mem {Key T : Type} [Inhabited T] (crc32 : Key → Nat) (m : Map T)
    (val : Key × T) (hwf : m.WF) :
    (m.insert crc32 val).1.WF ∧
    (m.Ascending → (m.insert crc32 val).1.Ascending) ∧
    ∀ e, e ∈ (m.insert crc32 val).1.entries ↔
      (e ∈ m.entries ∨ (¬ m.HasHash (crc32 val.1) ∧ e = (crc32 val.1, val.2))) := by
  by_cases hh : m.HasHash (crc32 val.1)
  · rw [Map.insert_present crc32 m val hh]
    refine ⟨hwf, fun h => h, fun e => ?_⟩
    constructor
    · exact fun h => Or.inl h
    · rintro (h | ⟨h, _⟩)
      · exact h
      · exact absurd hh h
  · obtain ⟨i1, i2, _, _⟩ := Map.insert_absent crc32 m val hwf hh
    refine ⟨i1, ?_, fun e => ?_⟩
    · intro hasc
      simp only [Map.Ascending]
      rw [i2]
      exact std_sort_ascending _ (keys_nodup_after_insert _ (crc32 val.1, val.2) hasc hh)
    · rw [i2, (std_sort_perm _ _).mem_iff, List.mem_append, List.mem_singleton]
      constructor
      · rintro (h | h)
        · exact Or.inl h
        · exact Or.inr ⟨hh, h⟩
      · rintro (h | ⟨_, h⟩)
        · exact Or.inl h
        · exact Or.inr h

theorem Map.insert_hasHash_other {Key T : Type} [Inhabited T] (crc32 : Key → Nat) (m : Map T)
    (val : Key × T) (h : Nat) (hwf : m.WF) (hne : crc32 val.1 ≠ h) :
    (m.insert crc32 val).1.HasHash h ↔ m.HasHash h := by
  obtain ⟨_, _, hm⟩ := Map.insert_mem crc32 m val hwf
  constructor
  · rintro ⟨e, he, hk⟩
    rcases (hm e).1 he with h1 | ⟨_, h1⟩
    · exact ⟨e, h1, hk⟩
    · rw [h1] at hk; exact absurd hk hne
  · rintro ⟨e, he, hk⟩
    exact ⟨e, (hm e).2 (Or.inl he), hk⟩

theorem Map.at_present {Key T : Type} (crc32 : Key → Nat) (m : Map T) (key : Key)
    (h : m.HasHash (crc32 key)) :
    m.at_ crc32 key = (m, Except.ok (m.entries.findIdx (hash_is (crc32 key)))) := by
  have h2 := (Map.hasHash_iff m _).1 h
  simp only [Map.at_, Map.begin, scan_return_eq, h2, if_true, Nat.zero_add]

theorem Map.assign_present_get {Key T : Type} [Inhabited T] (crc32 : Key → Nat) (m : Map T)
    (k : Key) (v : T) (hwf : m.WF) (hh : m.HasHash (crc32 k)) :
    (m.assign crc32 k v).get crc32 k = (m.assign crc32 k v, some v) ∧
    (m.assign crc32 k v).size = m.size ∧ (m.assign crc32 k v).WF := by
  obtain ⟨e, he1, he2, _⟩ := first_entry _ _ hh
  have hassign : m.assign crc32 k v
      = m.write_second (m.entries.findIdx (hash_is (crc32 k))) v := by
    simp only [Map.assign, Map.index_present crc32 m k hwf hh]
  rw [hassign]
  have hw := Map.write_second_wf m (m.entries.findIdx (hash_is (crc32 k))) v hwf
  have hent := Map.write_second_entries m (m.entries.findIdx (hash_is (crc32 k))) v
  have hkeys := modify_second_keys m.entries (m.entries.findIdx (hash_is (crc32 k))) v
  rw [← hent] at hkeys
  have hidx := findIdx_keys (crc32 k) _ _ hkeys
  have hslot : (m.write_second (m.entries.findIdx (hash_is (crc32 k))) v).entries[
      m.entries.findIdx (hash_is (crc32 k))]? = some (e.1, v) := by
    rw [hent, List.getElem?_modify_eq, he1]; rfl
  have hh2 : (m.write_second (m.entries.findIdx (hash_is (crc32 k))) v).HasHash (crc32 k) :=
    ⟨(e.1, v), List.getElem?_mem hslot, he2⟩
  refine ⟨?_, rfl, hw⟩
  simp only [Map.get, Map.index_present crc32 _ k hw hh2, hidx, Map.read_second,
    Map.entries_slot _ _ _ hslot, Option.map_some']

theorem Map.index_congr {Key T : Type} [Inhabited T] (crc32 : Key → Nat) (m : Map T)
    (k1 k2 : Key) (h : crc32 k1 = crc32 k2) : m.index crc32 k2 = m.index crc32 k1 := by
  simp only [Map.index, Map.insert, Map.find, h]

/-- C18: two distinct keys `k1`, `k2` with the same hash are one entry. On a
well-formed map with no entry of that hash, after `insert(k1, v1)`: `find(k2)`
and `at(k2)` give the position of the entry of `k1`, whose value is `v1`;
`count(k2)` is 1; `insert(k2, v2)` returns `false` and the map as it was; and
after `m[k2] = v2` the read `m[k1]` gives `v2` while the size is unchanged. -/
theorem C18_colliding_keys_one_entry {Key T : Type} [Inhabited T] (crc32 : Key → Nat)
    (m : Map T) (k1 k2 : Key) (v1 v2 : T) (hwf : m.WF) (hne : k1 ≠ k2)
    (hcol : crc32 k1 = crc32 k2) (habs : ¬ m.HasHash (crc32 k1)) :
    k1 ≠ k2 ∧
    (m.insert crc32 (k1, v1)).1.find crc32 k2 = (m.insert crc32 (k1, v1)).1.find crc32 k1 ∧
    (m.insert crc32 (k1, v1)).1.entries[(m.insert crc32 (k1, v1)).1.find crc32 k2]?
      = some (crc32 k1, v1) ∧
    (m.insert crc32 (k1, v1)).1.at_ crc32 k2
      = ((m.insert crc32 (k1, v1)).1,
          Except.ok ((m.insert crc32 (k1, v1)).1.find crc32 k1)) ∧
    (m.insert crc32 (k1, v1)).1.read_second ((m.insert crc32 (k1, v1)).1.find crc32 k1)
      = some v1 ∧
    (m.insert crc32 (k1, v1)).1.count crc32 k2 = 1 ∧
    (m.insert crc32 (k1, v1)).1.insert crc32 (k2, v2)
      = ((m.insert crc32 (k1, v1)).1, ((m.insert crc32 (k1, v1)).1.find crc32 k1, false)) ∧
    (((m.insert crc32 (k1, v1)).1.assign crc32 k2 v2).get crc32 k1).2 = some v2 ∧
    ((m.insert crc32 (k1, v1)).1.assign crc32 k2 v2).size = (m.insert crc32 (k1, v1)).1.size := by
  obtain ⟨hw, hent, _, _⟩ := Map.insert_absent crc32 m (k1, v1) hwf habs
  have hperm : (m.insert crc32 (k1, v1)).1.entries.Perm (m.entries ++ [(crc32 k1, v1)]) := by
    rw [hent]; exact std_sort_perm _ _
  obtain ⟨hmem, huniq⟩ := unique_after_insert _ _ (crc32 k1, v1) hperm habs
  have hlook := lookup_unique (crc32 k1) _ (crc32 k1, v1) hmem rfl huniq
  have hh1 : (m.insert crc32 (k1, v1)).1.HasHash (crc32 k1) := ⟨_, hmem, rfl⟩
  have hh2 : (m.insert crc32 (k1, v1)).1.HasHash (crc32 k2) := hcol ▸ hh1
  generalize (m.insert crc32 (k1, v1)).1 = m1 at hw hlook hh1 hh2
  have hf : m1.find crc32 k2 = m1.find crc32 k1 := by
    rw [Map.find_eq, Map.find_eq, hcol]
  have hlt : m1.find crc32 k1 < m1.data_.size_ := by
    rw [Map.find_eq, ← Map.entries_length m1 hw]
    exact (Map.hasHash_iff m1 _).1 hh1
  have hassign : m1.assign crc32 k2 v2 = m1.assign crc32 k1 v2 := by
    simp only [Map.assign, Map.index_congr crc32 m1 k1 k2 hcol]
  obtain ⟨g1, g2, _⟩ := Map.assign_present_get crc32 m1 k1 v2 hw hh1
  refine ⟨hne, hf, ?_, ?_, ?_, ?_, ?_, ?_, ?_⟩
  · rw [hf, Map.find_eq]; exact hlook
  · rw [Map.at_present crc32 m1 k2 hh2, Map.find_eq, hcol]
  · rw [Map.find_eq]
    simp only [Map.read_second, Map.entries_slot m1 _ _ hlook, Option.map_some']
  · simp only [Map.count, hf, Map.end_]
    rw [if_neg (by omega)]
  · rw [Map.insert_present crc32 m1 (k2, v2) hh2, Map.find_eq, hcol]
  · rw [hassign, g1]
  · rw [hassign, g2]

set_option maxRecDepth 100000 in
theorem C18_colliding_keys_one_entry_witness :
    (Map.new : Map Int).WF ∧ "ab" ≠ "ba" ∧ demo_crc32 "ab" = demo_crc32 "ba" ∧
    ¬ (Map.new : Map Int).HasHash (demo_crc32 "ab") ∧
    demo_ab.count demo_crc32 "ba" = 1 ∧
    (demo_ab.insert demo_crc32 ("ba", 2)).1.entries = [(195, 1)] ∧
    ((demo_ab.assign demo_crc32 "ba" 2).get demo_crc32 "ab").2 = some 2 :=
  ⟨by decide, by decide, by decide, by decide,
    (C18_colliding_keys_one_entry demo_crc32 (Map.new : Map Int) "ab" "ba" 1 2 (by decide)
      (by decide) (by decide) (by decide)).2.2.2.2.2.1,
    by decide, by decide⟩

/-- C20: on a well-formed map with strictly ascending hashes and two keys of
different hashes, `insert(k1, v1)` then `insert(k2, v2)` and `insert(k2, v2)`
then `insert(k1, v1)` give the same sequence of entries, and the two maps
compare equal with `operator==`. -/
theorem C20_insert_order_irrelevant {Key T : Type} [Inhabited T] [DecidableEq T]
    (crc32 : Key → Nat) (m : Map T) (k1 k2 : Key) (v1 v2 : T) (hwf : m.WF)
    (hasc : m.Ascending) (hne : crc32 k1 ≠ crc32 k2) :
    ((m.insert crc32 (k1, v1)).1.insert crc32 (k2, v2)).1.entries
      = ((m.insert crc32 (k2, v2)).1.insert crc32 (k1, v1)).1.entries ∧
    Map.op_eq ((m.insert crc32 (k1, v1)).1.insert crc32 (k2, v2)).1
      ((m.insert crc32 (k2, v2)).1.insert crc32 (k1, v1)).1 = some true := by
  obtain ⟨w1, a1, f1⟩ := Map.insert_mem crc32 m (k1, v1) hwf
  obtain ⟨w2, a2, f2⟩ := Map.insert_mem crc32 m (k2, v2) hwf
  obtain ⟨w12, a12, f12⟩ := Map.insert_mem crc32 (m.insert crc32 (k1, v1)).1 (k2, v2) w1
  obtain ⟨w21, a21, f21⟩ := Map.insert_mem crc32 (m.insert crc32 (k2, v2)).1 (k1, v1) w2
  have hh12 := Map.insert_hasHash_other crc32 m (k1, v1) (crc32 k2) hwf hne
  have hh21 := Map.insert_hasHash_other crc32 m (k2, v2) (crc32 k1) hwf (fun c => hne c.symm)
  have hent : ((m.insert crc32 (k1, v1)).1.insert crc32 (k2, v2)).1.entries
      = ((m.insert crc32 (k2, v2)).1.insert crc32 (k1, v1)).1.entries := by
    apply ascending_ext _ _ (a12 (a1 hasc)) (a21 (a2 hasc))
    intro e
    rw [f12 e, f21 e, f1 e, f2 e, hh12, hh21]
    constructor
    · rintro ((h | h) | h)
      · exact Or.inl (Or.inl h)
      · exact Or.inr h
      · exact Or.inl (Or.inr h)
    · rintro ((h | h) | h)
      · exact Or.inl (Or.inl h)
      · exact Or.inr h
      · exact Or.inl (Or.inr h)
  refine ⟨hent, ?_⟩
  have hsz : ((m.insert crc32 (k1, v1)).1.insert crc32 (k2, v2)).1.size
      = ((m.insert crc32 (k2, v2)).1.insert crc32 (k1, v1)).1.size := by
    simp only [Map.size, Vector.size]
    rw [← Map.entries_length _ w12, ← Map.entries_length _ w21, hent]
  simp only [Map.op_eq, hsz, ne_eq, not_true_eq_false, if_false, hent]
  exact eq_loop_same _

set_option maxRecDepth 100000 in
theorem C20_insert_order_irrelevant_witness :
    demo_one.WF ∧ demo_one.Ascending ∧ demo_crc32 "Three" ≠ demo_crc32 "Two" ∧
    ((demo_one.insert demo_crc32 ("Three", 3)).1.insert demo_crc32 ("Two", 2)).1.entries
      = [(290, 1), (314, 2), (504, 3)] ∧
    ((demo_one.insert demo_crc32 ("Three", 3)).1.insert demo_crc32 ("Two", 2)).1.entries
      = ((demo_one.insert demo_crc32 ("Two", 2)).1.insert demo_crc32 ("Three", 3)).1.entries :=
  ⟨by decide, by decide, by decide, by decide,
    (C20_insert_order_irrelevant demo_crc32 demo_one "Three" "Two" 3 2 (by decide) (by decide)
      (by decide)).1⟩

set_option maxRecDepth 1000000 in
theorem C12_push_back_growth_witness :
    demo_vec.size = 4 ∧ demo_vec.toList = [1, 2, 3, 4] ∧ demo_vec.capacity = 256 ∧
    ((Vector.new : Vector Nat).push_all (List.replicate 257 7)).capacity = 512 ∧
    ((Vector.new : Vector Nat).push_all (List.replicate 257 7)).size = 257 :=
  ⟨(C12_push_back_growth.1 [1, 2, 3, 4]).1, (C12_push_back_growth.1 [1, 2, 3, 4]).2.1,
    by decide, by decide, (C12_push_back_growth.1 (List.replicate 257 7)).1.trans (by simp)⟩

/-! ## Runs through `erase` -/

theorem Map.insert_hasHash {Key T : Type} [Inhabited T] (crc32 : Key → Nat) (m : Map T)
    (val : Key × T) (hwf : m.WF) : (m.insert crc32 val).1.HasHash (crc32 val.1) := by
  obtain ⟨_, _, hm⟩ := Map.insert_mem crc32 m val hwf
  by_cases hh : m.HasHash (crc32 val.1)
  · obtain ⟨e, he, hk⟩ := hh
    exact ⟨e, (hm e).2 (Or.inl he), hk⟩
  · exact ⟨(crc32 val.1, val.2), (hm _).2 (Or.inr ⟨hh, rfl⟩), rfl⟩

theorem Map.erase_present_none {Key T : Type} (crc32 : Key → Nat) (m : Map T) (k : Key)
    (hwf : m.WF) (hh : m.HasHash (crc32 k)) : m.erase crc32 k = none := by
  have hlen := Map.entries_length m hwf
  have hlt := (Map.hasHash_iff m _).1 hh
  have hne : ¬ (m.find crc32 k = m.end_) := by
    rw [Map.find_eq, Map.end_]; omega
  simp only [Map.erase, hne, if_false, Map.erase_pos, Map.vector_erase_no_argument,
    Option.map_none']

theorem Map.run_erase_pos_none {Key T : Type} [Inhabited T] (crc32 : Key → Nat) :
    ∀ (ops : List (Op Key T)) (m0 : Map T) (pos : Nat), Op.erase_pos pos ∈ ops →
      Map.run crc32 m0 ops = none := by
  intro ops
  induction ops with
  | nil => intro m0 pos h; cases h
  | cons op ops ih =>
    intro m0 pos h
    simp only [Map.run]
    cases hs : m0.step crc32 op with
    | none => rfl
    | some m1 =>
      simp only [Option.some_bind]
      rcases List.mem_cons.1 h with h1 | h1
      · rw [← h1] at hs
        simp [Map.step, Map.erase_pos, Map.vector_erase_no_argument] at hs
      · exact ih m1 pos h1

theorem Map.run_insert_erase_none {Key T : Type} [Inhabited T] (crc32 : Key → Nat)
    (m0 : Map T) (k : Key) (v : T) (hwf : m0.WF) :
    Map.run crc32 m0 [Op.insert k v, Op.erase_key k] = none := by
  obtain ⟨hw, _, _⟩ := Map.insert_mem crc32 m0 (k, v) hwf
  have hh := Map.insert_hasHash crc32 m0 (k, v) hwf
  simp only [Map.run, Map.step, Option.some_bind,
    Map.erase_present_none crc32 _ k hw hh, Option.map_none', Option.none_bind]

/-- C3: runs of `insert`, `erase(key)`, `erase(pos)` and `operator[]` calls
from the empty map. Every run that has a result ends in a well-formed map with
strictly ascending hashes from `begin()` to `end()` (so no two entries share a
hash), and every run of `insert` and `operator[]` calls has a result. But no
run through `erase(pos)` has one, from any map, because its `data_.erase()`
names no member of `Vector`; nor has `insert(k, v)` followed by `erase(k)`. So
after `insert({"One", 1})` and `erase("One")` there is no map whose entries
could be read. -/
theorem C3_runs_through_erase_have_no_result :
    (∀ (Key T : Type) [Inhabited T] (crc32 : Key → Nat),
      (∀ (ops : List (Op Key T)) (m : Map T), Map.run crc32 Map.new ops = some m →
        m.WF ∧ m.Ascending ∧ (m.entries.map Prod.fst).Nodup) ∧
      (∀ ops : List (Op Key T),
        (∀ op ∈ ops, (∃ k v, op = Op.insert k v) ∨ (∃ k, op = Op.index k) ∨
          (∃ k v, op = Op.assign k v)) →
        ∃ m, Map.run crc32 Map.new ops = some m) ∧
      (∀ (ops : List (Op Key T)) (m0 : Map T) (pos : Nat), Op.erase_pos pos ∈ ops →
        Map.run crc32 m0 ops = none) ∧
      (∀ (k : Key) (v : T),
        Map.run crc32 (Map.new : Map T) [Op.insert k v, Op.erase_key k] = none)) ∧
    Map.run demo_crc32 (Map.new : Map Int) demo_ops = some demo_final ∧
    demo_final.entries = [(290, 0), (314, 2), (504, 3)] ∧
    Map.run demo_crc32 (Map.new : Map Int) [Op.insert "One" 1] = some demo_one ∧
    demo_one.entries = [(290, 1)] ∧
    Map.run demo_crc32 (Map.new : Map Int) [Op.insert "One" 1, Op.erase_key "One"] = none ∧
    Map.run demo_crc32 (Map.new : Map Int) [Op.insert "One" 1, Op.erase_pos 0] = none := by
  refine ⟨fun Key T _ crc32 => ⟨(Map.run_invariant crc32).1, (Map.run_invariant crc32).2,
    Map.run_erase_pos_none crc32, fun k v => Map.run_insert_erase_none crc32 _ k v Map.new_wf⟩,
    ?_⟩
  set_option maxRecDepth 100000 in decide

/-! ## Ranges of odd and even length -/

theorem erase_range_loop_odd {α : Type} :
    ∀ (fuel : Nat) (v : Vector α) (it : Nat) (last : Int), ((it : Int) + last) % 2 = 1 →
      Vector.erase_range_loop fuel v it last = none := by
  intro fuel
  induction fuel with
  | zero => intro v it last _; rfl
  | succ fuel ih =>
    intro v it last hodd
    have hne : ¬ ((it : Int) = last) := by omega
    simp only [Vector.erase_range_loop, hne, if_false]
    cases hv : v.erase it with
    | none => rfl
    | some v1 =>
      simp only [Option.some_bind]
      apply ih
      push_cast
      omega

theorem Vector.erase_range_odd {α : Type} (v : Vector α) (first last : Nat)
    (hodd : (first + last) % 2 = 1) : v.erase_range first last = none := by
  have hne : ¬ first = last := by omega
  simp only [Vector.erase_range, hne, if_false]
  apply erase_range_loop_odd
  omega

theorem erase_range_loop_even {α : Type} :
    ∀ (k fuel : Nat) (v : Vector α) (it : Nat), v.WF → it + 2 * k ≤ v.size_ → k < fuel →
      ∃ v1, Vector.erase_range_loop fuel v it ((it : Int) + 2 * k) = some v1 := by
  intro k
  induction k with
  | zero =>
    intro fuel v it _ _ hf
    obtain ⟨f, rfl⟩ : ∃ f, fuel = f + 1 := ⟨fuel - 1, by omega⟩
    exact ⟨v, by simp [Vector.erase_range_loop]⟩
  | succ k ih =>
    intro fuel v it hwf hle hf
    obtain ⟨f, rfl⟩ : ∃ f, fuel = f + 1 := ⟨fuel - 1, by omega⟩
    have hne : ¬ ((it : Int) = (it : Int) + 2 * ((k + 1 : Nat) : Int)) := by omega
    obtain ⟨v1, e1, w1, _, s1, _⟩ := Vector.erase_spec v it hwf (by omega)
    obtain ⟨v2, e2⟩ := ih f v1 (it + 1) w1 (by omega) (by omega)
    refine ⟨v2, ?_⟩
    simp only [Vector.erase_range_loop, hne, if_false, e1, Option.some_bind]
    have hlast : (it : Int) + 2 * ((k + 1 : Nat) : Int) - 1 = ((it + 1 : Nat) : Int) + 2 * (k : Int) := by
      push_cast; omega
    rw [hlast]
    exact e2

theorem Vector.erase_range_even {α : Type} (v : Vector α) (first last : Nat) (hwf : v.WF)
    (h1 : first ≤ last) (h2 : last ≤ v.size_) (heven : (last - first) % 2 = 0) :
    ∃ v1, v.erase_range first last = some v1 := by
  by_cases he : first = last
  · exact ⟨v, by simp only [Vector.erase_range, he, if_true]⟩
  · obtain ⟨k, hk⟩ : ∃ k, last = first + 2 * k := ⟨(last - first) / 2, by omega⟩
    obtain ⟨v1, e1⟩ := erase_range_loop_even k (v.size_ + 2) v first hwf (by omega) (by omega)
    refine ⟨v1, ?_⟩
    simp only [Vector.erase_range, he, if_false]
    have hlast : (last : Int) = (first : Int) + 2 * (k : Int) := by
      rw [hk]; push_cast; rfl
    rw [hlast]
    exact e1

/-- C13: `size_ <= capacity_` (with a buffer of `capacity_` slots) holds for
a vector made by `Vector()`, `Vector(count)` and `Vector(count, val)`; each of
`push_back`, `pop_back`, `reserve`, both `resize`, `clear`, `erase(pos)` and
`swap` keeps it, and none of them but `swap` returns a vector of smaller
capacity. `erase(first, last)` keeps it whenever it has a result, and has one
for every range of even length inside the vector. But for every `first` and
`last` an odd number of slots apart it has none: `it` steps over `last`, the
loop never ends and `erase(it)` runs off the buffer; so it is for
`erase(begin(), begin() + 1)` on the vector 1, 2, 3, 4. -/
theorem C13_erase_range_odd_has_no_result :
    (∀ (α : Type) [Inhabited α],
      (∀ v : Vector α, v.WF → v.size ≤ v.capacity) ∧
      (Vector.new : Vector α).WF ∧
      (∀ count, (Vector.new_count count : Vector α).WF) ∧
      (∀ count val, (Vector.new_count_val count val : Vector α).WF) ∧
      (∀ v : Vector α, v.WF →
        (∀ x, (v.push_back x).WF ∧ v.capacity ≤ (v.push_back x).capacity) ∧
        (v.pop_back.WF ∧ v.capacity ≤ v.pop_back.capacity) ∧
        (∀ n, (v.reserve n).WF ∧ v.capacity ≤ (v.reserve n).capacity) ∧
        (∀ n, (v.resize n).WF ∧ v.capacity ≤ (v.resize n).capacity) ∧
        (∀ n val, (v.resize_val n val).WF ∧ v.capacity ≤ (v.resize_val n val).capacity) ∧
        (v.clear.WF ∧ v.capacity ≤ v.clear.capacity) ∧
        (∀ pos, pos ≤ v.size → ∃ v1, v.erase pos = some v1) ∧
        (∀ pos v1, v.erase pos = some v1 → v1.WF ∧ v.capacity ≤ v1.capacity) ∧
        (∀ first last v1, v.erase_range first last = some v1 →
          v1.WF ∧ v.capacity ≤ v1.capacity) ∧
        (∀ other : Vector α, other.WF → (v.swap other).1.WF ∧ (v.swap other).2.WF))) ∧
    (∀ (α : Type) (v : Vector α) (first last : Nat), v.WF → first ≤ last → last ≤ v.size →
      (last - first) % 2 = 0 →
      ∃ v1, v.erase_range first last = some v1 ∧ v1.WF ∧ v.capacity ≤ v1.capacity) ∧
    (∀ (α : Type) (v : Vector α) (first last : Nat), (first + last) % 2 = 1 →
      v.erase_range first last = none) ∧
    demo_vec.WF ∧ demo_vec.size = 4 ∧ demo_vec.toList = [1, 2, 3, 4] ∧
    demo_vec.erase_range 0 1 = none ∧ demo_vec.erase_range 1 4 = none ∧
    demo_vec.erase_range 3 4 = none ∧
    (demo_vec.erase_range 0 2).map Vector.toList = some [2, 3, 4] := by
  refine ⟨fun α _ => Vector.invariant_kept, ?_,
    fun α v first last h => Vector.erase_range_odd v first last h, ?_⟩
  · intro α v first last hwf h1 h2 heven
    obtain ⟨v1, e1⟩ := Vector.erase_range_even v first last hwf h1 h2 heven
    obtain ⟨w1, c1, _⟩ := Vector.erase_range_some v v1 first last hwf e1
    exact ⟨v1, e1, w1, by simp only [Vector.capacity]; omega⟩
  · set_option maxRecDepth 100000 in decide

end Lab12
